import Mathlib

/-!
Verification of the kflux-scripts repository: shallow embeddings of the
resource-generation scripts (`scripts/*.mjs`, `scripts/utils.mjs`) and of the
Jira issue closer (`dev/close_issues.sh`), together with proofs of the
specification's claims about them.

Conventions used throughout:
* JavaScript `Math.random()` draws are modelled as rational parameters `r`
  with `0 ≤ r < 1`; a script that performs several draws takes a stream
  `Nat → ℚ` of such parameters.  The random suffixes consumed by the
  materialization loops are abstracted as a function `Nat → String` from the
  loop index to the suffix produced at that iteration.
* Interactive answers (`question(...)`) are modelled as explicit `String`
  arguments.
* Failure of an external command (`kubectl`, `curl`) is modelled as an
  explicit `Bool`/sum argument describing the outcome of that call.
* The mutable object graphs built by the scripts are modelled by an explicit
  heap (`Store`): object literals and `JSON.parse(JSON.stringify(...))`
  allocate nodes at the end of the heap, and property assignment mutates a
  node in place.  This makes claims about structural sharing and mutation
  expressible.
-/

namespace KfluxScripts

/-! ## Definitions -/

/-! ### `utils.mjs`: DELAY, checkSafetyThresholds, createResource's delay -/

/-- `const DELAY = 10000;` from `scripts/utils.mjs`.  JavaScript numbers on
this code path are integral, so we model the constant as a rational. -/
def DELAY : ℚ := 10000

/-- JavaScript's `String.prototype.toLowerCase()`, modelled character-wise
(the scripts only compare ASCII answers and ASCII Jira status names). -/
def toLowerCase (s : String) : String := String.mk (s.data.map Char.toLower)

/-- `checkSafetyThresholds(numberOfComponents)` from `scripts/utils.mjs`.
The function prompts only when `numberOfComponents > 10`, in which case it
returns `proceed.toLowerCase() === "y"` for the interactive answer `proceed`;
otherwise it returns `true` without prompting.  The result is the pair
`(prompted, value)`. -/
def checkSafetyThresholds (numberOfComponents : Int) (answer : String) :
    Bool × Bool :=
  if numberOfComponents > 10 then (true, toLowerCase answer == "y")
  else (false, true)

/-- `const delay = Math.random() * (DELAY * 2 - DELAY) + 10;` from
`createResource` in `scripts/utils.mjs`, with `r` the value drawn by
`Math.random()`. -/
def createResourceDelay (r : ℚ) : ℚ := r * (DELAY * 2 - DELAY) + 10

/-- The character pool `"abcdefghijklmnopqrstuvwxyz0123456789"`. -/
def randomChars : List Char := "abcdefghijklmnopqrstuvwxyz0123456789".data

/-- `appendRandomString({min, max})` from `scripts/utils.mjs`.
`rLen` is the `Math.random()` draw used for the length
(`Math.floor(Math.random() * (max - min + 1)) + min`), and `rChars k` is the
draw used for the `k`-th character (`chars[Math.floor(Math.random() *
chars.length)]`).  Each draw lies in `[0,1)`, so the character index is
always in range; the `getD` default is never used for in-range draws. -/
def appendRandomString (min max : Nat) (rLen : ℚ) (rChars : Nat → ℚ) :
    String :=
  let length : Nat := (⌊rLen * ((max : ℚ) - (min : ℚ) + 1)⌋).toNat + min
  String.mk ((List.range length).map fun k =>
    randomChars.getD (⌊rChars k * (randomChars.length : ℚ)⌋).toNat 'a')

/-! ### Control-flow model of `createResource` / `patchStatus` failure policy -/

/-- Result of one script step: either control returns normally, or the step
called `process.exit` with the given code. -/
inductive StepResult where
  | ok
  | exited (code : Nat)
deriving DecidableEq, Repr

/-- Control flow of `createResource` in `scripts/utils.mjs`: on apply success
it logs and sleeps and returns; in the catch block it logs and calls
`process.exit(1)`.  `applyOk` is the outcome of the `kubectl apply` call. -/
def createResource (applyOk : Bool) : StepResult :=
  if applyOk then .ok else .exited 1

/-- Control flow of `patchStatus` in `scripts/mock-components.mjs`: the catch
block only logs the error; the function returns normally whether or not the
`kubectl patch --subresource=status` call succeeded. -/
def patchStatus (_patchOk : Bool) : StepResult := .ok

/-- The per-config apply loop (`for (const config of allConfigs) await
createResource(config, ...)`).  Returns how many configs were attempted and
the exit code if the process terminated.  Each list entry is the outcome of
that config's `kubectl apply`. -/
def applyBatch : List Bool → Nat × Option Nat
  | [] => (0, none)
  | applyOk :: rest =>
    match createResource applyOk with
    | .ok => let (n, e) := applyBatch rest; (n + 1, e)
    | .exited c => (1, some c)

/-- The mock-components loop (`for (let i = 1; i <= count; i++)` in
`scripts/mock-components.mjs` with `populateStatus` enabled): apply the
component, then patch its status.  Each entry is
`(apply outcome, patch outcome)`. -/
def mockComponentsBatch : List (Bool × Bool) → Nat × Option Nat
  | [] => (0, none)
  | (applyOk, patchOk) :: rest =>
    match createResource applyOk with
    | .ok =>
      match patchStatus patchOk with
      | .ok => let (n, e) := mockComponentsBatch rest; (n + 1, e)
      | .exited c => (1, some c)
    | .exited c => (1, some c)

/-! ### The Jira issue closer (`dev/close_issues.sh`) -/

/-- The five statistics counters and the manual-review list of
`close_issues.sh` (`SUCCESS_COUNT`, `ALREADY_CLOSED_COUNT`,
`NOT_RELEASE_PENDING_COUNT`, `SKIPPED_COUNT`, `FAILED_COUNT`,
`NON_RELEASE_PENDING_ISSUES`). -/
structure CloserState where
  successCount : Nat
  alreadyClosedCount : Nat
  notReleasePendingCount : Nat
  skippedCount : Nat
  failedCount : Nat
  nonReleasePendingIssues : List (String × String × String)
deriving DecidableEq, Repr

/-- All counters start at zero and the review list empty. -/
def initialCloserState : CloserState := ⟨0, 0, 0, 0, 0, []⟩

/-- Outcome of `get_issue`: HTTP 404 and any non-200 response both make
`get_issue` return 1 (one recoverable per-issue failure); a 200 response
yields the parsed `status.name` and `assignee.displayName` (already defaulted
to `"Unassigned"` when absent). -/
inductive FetchResult where
  | fetchFailed
  | fetched (status assignee : String)
deriving DecidableEq, Repr

/-- `process_issue` from `dev/close_issues.sh`.  `transitionOk` is the
outcome of the `transition_issue` call (finding and POSTing a transition);
the optional `add_comment` call cannot change any counter, so its outcome
does not appear.  `tr '[:upper:]' '[:lower:]'` is modelled by
`toLowerCase`. -/
def process_issue (dryRun : Bool) (st : CloserState)
    (key : String) (fetch : FetchResult) (transitionOk : Bool) : CloserState :=
  match fetch with
  | .fetchFailed => { st with failedCount := st.failedCount + 1 }
  | .fetched status assignee =>
    let statusLower := toLowerCase status
    if statusLower = "done" ∨ statusLower = "closed" ∨
        statusLower = "resolved" then
      { st with alreadyClosedCount := st.alreadyClosedCount + 1 }
    else if statusLower ≠ "release pending" then
      { st with
          nonReleasePendingIssues :=
            st.nonReleasePendingIssues ++ [(key, status, assignee)],
          notReleasePendingCount := st.notReleasePendingCount + 1 }
    else if dryRun then
      { st with skippedCount := st.skippedCount + 1 }
    else if transitionOk then
      { st with successCount := st.successCount + 1 }
    else
      { st with failedCount := st.failedCount + 1 }

/-- Whether processing this issue increments `FAILED_COUNT`: the fetch
failed, or the issue was eligible (`release pending`, not dry-run) and the
transition failed. -/
def issueFails (dryRun : Bool) : String × FetchResult × Bool → Bool
  | (_, .fetchFailed, _) => true
  | (_, .fetched status _, transitionOk) =>
    decide (toLowerCase status = "release pending") && !dryRun && !transitionOk

/-- The per-issue while-loop of `main`, folding `process_issue` over the
fetched issues starting from zeroed counters. -/
def runCloser (dryRun : Bool)
    (issues : List (String × FetchResult × Bool)) : CloserState :=
  issues.foldl (fun st i => process_issue dryRun st i.1 i.2.1 i.2.2)
    initialCloserState

/-- The end of `main`: `if [[ $FAILED_COUNT -gt 0 ]]; then exit 1; fi`, and
otherwise the script reaches its end with status 0. -/
def closerExitCode (st : CloserState) : Nat :=
  if st.failedCount > 0 then 1 else 0

/-! ### `makeSpec` from `scripts/mock-components.mjs` -/

/-- JSON-like values, as built by the scripts' object and array literals
(also the result type when reading an object graph out of the heap). -/
inductive Tree where
  | str (s : String)
  | bool (b : Bool)
  | nul
  | obj (fields : List (String × Tree))
  | arr (elems : List Tree)
deriving Repr

/-- The `commonSource` fields of `makeSpec` (spread into every `source`). -/
def commonSource : List (String × Tree) :=
  [("url", Tree.str "https://github.com/example-org/example-repo"),
   ("dockerfileUri", Tree.str "Dockerfile")]

/-- `makeSpec(i)` from `scripts/mock-components.mjs`: a mock-Component spec
whose shape is selected by `const variant = i % 6` through the if-chain. -/
def makeSpec (i : Nat) : Tree :=
  let variant := i % 6
  if variant = 0 then
    .obj [("source", .obj (commonSource ++ [("versions", .arr [])]))]
  else if variant = 1 then
    .obj [("source", .obj (commonSource ++
      [("versions", .arr
        [.obj [("name", .str "main"), ("revision", .str "main")]])]))]
  else if variant = 2 then
    .obj [("containerImage", .str "quay.io/example-org/example-component"),
          ("repositorySettings",
            .obj [("commentStrategy", .str "disable_all")]),
          ("source", .obj (commonSource ++ [("versions", .arr [
            .obj [("name", .str "Version_1_0"), ("revision", .str "ver-1.0")],
            .obj [("name", .str "Test"), ("revision", .str "test"),
                  ("context", .str "./test"),
                  ("dockerfileUri", .str "test.Dockerfile"),
                  ("skipBuilds", .bool true)]])]))]
  else if variant = 3 then
    .obj [("skipOffboardingPr", .bool true),
          ("actions", .obj [
            ("triggerPushBuild", .str "main"),
            ("triggerPushBuilds", .arr [.str "main", .str "Test"]),
            ("createPipelineConfigurationPr", .obj [
              ("allVersions", .bool false),
              ("versions", .arr [.str "main", .str "Test"])])]),
          ("source", .obj (commonSource ++ [("versions", .arr [
            .obj [("name", .str "main"), ("revision", .str "main")],
            .obj [("name", .str "Test"), ("revision", .str "test")]])]))]
  else if variant = 4 then
    .obj [("defaultBuildPipeline", .obj [("pullAndPush", .obj [
            ("pipelineSpecFromBundle", .obj [
              ("name", .str "docker-build-oci-ta"),
              ("bundle", .str "latest")])])]),
          ("source", .obj (commonSource ++ [("versions", .arr [
            .obj [("name", .str "DifferentPipeline"),
                  ("revision", .str "different_branch"),
                  ("buildPipeline", .obj [("pullAndPush", .obj [
                    ("pipelineSpecFromBundle", .obj [
                      ("name", .str "docker-build-oci-ta"),
                      ("bundle", .str "latest")])])])]])]))]
  else
    .obj [("containerImage", .str "quay.io/example-org/example-component"),
          ("source", .obj (commonSource ++ [("versions", .arr
            ((List.range 10).map fun idx =>
              .obj [("name", .str ("v" ++ Nat.repr (idx + 1))),
                    ("revision",
                      .str ("branch-v" ++ Nat.repr (idx + 1)))]))]))]

/-- Property lookup in an object literal's field list. -/
def lookupTreeField : List (String × Tree) → String → Option Tree
  | [], _ => none
  | (k, v) :: rest, key => if k = key then some v else lookupTreeField rest key

/-- Number of entries of `spec.source.versions`, when present. -/
def sourceVersionsCount (t : Tree) : Option Nat :=
  match t with
  | .obj fields =>
    match lookupTreeField fields "source" with
    | some (.obj sf) =>
      match lookupTreeField sf "versions" with
      | some (.arr vs) => some vs.length
      | _ => none
    | _ => none
  | _ => none

/-! ### Issue-key extraction (`extract_jira_issues`, `validate_issue_key`) -/

/-- Word characters for grep's `\b` word boundary: `[A-Za-z0-9_]`. -/
def isWordChar (c : Char) : Bool := c.isAlpha || c.isDigit || c == '_'

/-- Attempt to match `[A-Z][A-Z0-9]*-[0-9]+` followed by a word boundary at
the head of `l`; the caller has already checked the word boundary before
`l`.  Both subpattern repetitions are unambiguous because `-` is in neither
character class, so POSIX leftmost-longest matching coincides with taking
the maximal runs.  Returns the token and the remaining input. -/
def matchIssueAt (l : List Char) : Option (List Char × List Char) :=
  match l with
  | [] => none
  | c :: rest =>
    if c.isUpper then
      let run := (c :: rest).takeWhile fun x => x.isUpper || x.isDigit
      match (c :: rest).dropWhile fun x => x.isUpper || x.isDigit with
      | '-' :: tail =>
        let digits := tail.takeWhile Char.isDigit
        let afterDigits := tail.dropWhile Char.isDigit
        if digits.isEmpty then none
        else
          match afterDigits with
          | [] => some (run ++ '-' :: digits, [])
          | d :: _ =>
            if isWordChar d then none
            else some (run ++ '-' :: digits, afterDigits)
      | _ => none
    else none

/-- Scan for all non-overlapping grep matches of
`\b[A-Z][A-Z0-9]*-[0-9]+\b`, left to right.  `prevIsWord` tells whether the
character before the current position is a word character (for the leading
`\b`); `fuel` bounds the recursion and is chosen `≥ length + 1` by the
caller. -/
def scanIssues : Nat → Bool → List Char → List (List Char)
  | 0, _, _ => []
  | _ + 1, _, [] => []
  | fuel + 1, prevIsWord, c :: rest =>
    if !prevIsWord && c.isUpper then
      match matchIssueAt (c :: rest) with
      | some (tok, remaining) => tok :: scanIssues fuel true remaining
      | none => scanIssues fuel (isWordChar c) rest
    else scanIssues fuel (isWordChar c) rest

/-- The `grep -oE '\b[A-Z][A-Z0-9]*-[0-9]+\b'` stage of
`extract_jira_issues` over the changelog text. -/
def grepIssueKeys (text : String) : List String :=
  (scanIssues (text.data.length + 1) false text.data).map String.mk

/-- Lexicographic (codepoint-order) comparison, as `sort` uses in the C
locale. -/
def charListLt : List Char → List Char → Bool
  | [], [] => false
  | [], _ :: _ => true
  | _ :: _, [] => false
  | a :: as, b :: bs =>
    if a.toNat < b.toNat then true
    else if b.toNat < a.toNat then false
    else charListLt as bs

/-- Sorted insertion that drops duplicates; `sortUnique` models `sort -u`. -/
def insertSortedUnique (s : String) : List String → List String
  | [] => [s]
  | t :: rest =>
    if s = t then t :: rest
    else if charListLt s.data t.data then s :: t :: rest
    else t :: insertSortedUnique s rest

/-- `sort -u` over the grep output. -/
def sortUnique (l : List String) : List String :=
  l.foldl (fun acc s => insertSortedUnique s acc) []

/-- `validate_issue_key` from `dev/close_issues.sh`: the key must match
`^[A-Z][A-Z0-9]+-[0-9]+$` (at least two characters before the dash) and be
at most 50 characters long. -/
def validate_issue_key (key : String) : Bool :=
  (match key.data with
   | [] => false
   | c :: rest =>
     c.isUpper &&
     (let run := rest.takeWhile fun x => x.isUpper || x.isDigit
      let after := rest.dropWhile fun x => x.isUpper || x.isDigit
      !run.isEmpty &&
      (match after with
       | '-' :: tail => !tail.isEmpty && tail.all Char.isDigit
       | _ => false))) &&
  key.data.length ≤ 50

/-- `extract_jira_issues` from `dev/close_issues.sh`: grep for issue-shaped
tokens, `sort -u`, then keep only the keys accepted by
`validate_issue_key` (rejected candidates are only warned about). -/
def extract_jira_issues (text : String) : List String :=
  (sortUnique (grepIssueKeys text)).filter validate_issue_key

/-! ### A heap model of the materialization loops

The scripts build one template object literal, then in a loop deep-copy it
via `JSON.parse(JSON.stringify(...))` and assign a few properties of the
copy.  To be able to state the absence of structural sharing we model the
object graphs with an explicit heap: `JVal.ref a` is a pointer to the node
at index `a` of the `Store`; object/array allocation appends a node. -/

/-- A JavaScript value as stored in a field: a primitive appearing in the
embedded templates, or a reference into the heap. -/
inductive JVal where
  | str (s : String)
  | nul
  | ref (a : Nat)
deriving DecidableEq, Repr

/-- A heap node: an object with ordered fields, or an array. -/
inductive JNode where
  | obj (fields : List (String × JVal))
  | arr (elems : List JVal)
deriving DecidableEq, Repr

/-- The heap: node `a` lives at index `a`; allocation appends. -/
abbrev Store := List JNode

/-- Copy an object's fields left to right, threading the heap through the
one-level-smaller deep copy `cp`. -/
def copyFieldsWith (cp : Store → JVal → Option (Store × JVal)) :
    Store → List (String × JVal) → Option (Store × List (String × JVal))
  | s, [] => some (s, [])
  | s, (k, v) :: rest =>
    match cp s v with
    | none => none
    | some (s', v') =>
      match copyFieldsWith cp s' rest with
      | none => none
      | some (s'', rest') => some (s'', (k, v') :: rest')

/-- Copy an array's elements left to right. -/
def copyElemsWith (cp : Store → JVal → Option (Store × JVal)) :
    Store → List JVal → Option (Store × List JVal)
  | s, [] => some (s, [])
  | s, v :: rest =>
    match cp s v with
    | none => none
    | some (s', v') =>
      match copyElemsWith cp s' rest with
      | none => none
      | some (s'', rest') => some (s'', v' :: rest')

/-- `JSON.parse(JSON.stringify(v))`: rebuild the tree reachable from `v`
with freshly allocated nodes appended at the end of the heap.  `fuel` bounds
the recursion depth; every use in this file passes `copyFuel = 12`, far
above the depth of the embedded templates, so the copy always succeeds. -/
def deepCopy : Nat → Store → JVal → Option (Store × JVal)
  | 0, _, _ => none
  | _ + 1, s, .str x => some (s, .str x)
  | _ + 1, s, .nul => some (s, .nul)
  | fuel + 1, s, .ref a =>
    match s[a]? with
    | some (.obj fields) =>
      match copyFieldsWith (deepCopy fuel) s fields with
      | some (s', fields') => some (s' ++ [.obj fields'], .ref s'.length)
      | none => none
    | some (.arr elems) =>
      match copyElemsWith (deepCopy fuel) s elems with
      | some (s', elems') => some (s' ++ [.arr elems'], .ref s'.length)
      | none => none
    | none => none

/-- Assignment `o[k] = v` on an object's field list: replace the value in
place if the key exists, else append the new key (JS property order). -/
def setFieldList : List (String × JVal) → String → JVal → List (String × JVal)
  | [], k, v => [(k, v)]
  | (k', v') :: rest, k, v =>
    if k' = k then (k', v) :: rest else (k', v') :: setFieldList rest k v

/-- Assignment `node.k = v` for the node at heap address `a` (a no-op if the
address does not hold an object; on the embedded templates it always
does). -/
def setField (s : Store) (a : Nat) (k : String) (v : JVal) : Store :=
  match s[a]? with
  | some (.obj fields) => s.set a (.obj (setFieldList fields k v))
  | _ => s

/-- Property lookup in a field list. -/
def lookupField : List (String × JVal) → String → Option JVal
  | [], _ => none
  | (k', v') :: rest, k => if k' = k then some v' else lookupField rest k

/-- Follow a path of property accesses from `v` and return the heap address
of the object reached (the evaluation of `config.metadata` etc. as an
assignment target). -/
def resolveAddr (s : Store) : JVal → List String → Option Nat
  | .ref a, [] => some a
  | .ref a, k :: path =>
    (match s[a]? with
     | some (.obj fields) =>
       match lookupField fields k with
       | some v => resolveAddr s v path
       | none => none
     | _ => none)
  | _, _ => none

/-- Read the fields of an object out of the heap. -/
def readFieldsWith (rd : JVal → Option Tree) :
    List (String × JVal) → Option (List (String × Tree))
  | [] => some []
  | (k, v) :: rest =>
    match rd v with
    | none => none
    | some t =>
      match readFieldsWith rd rest with
      | none => none
      | some rest' => some ((k, t) :: rest')

/-- Read the elements of an array out of the heap. -/
def readElemsWith (rd : JVal → Option Tree) : List JVal → Option (List Tree)
  | [] => some []
  | v :: rest =>
    match rd v with
    | none => none
    | some t =>
      match readElemsWith rd rest with
      | none => none
      | some rest' => some (t :: rest')

/-- The JSON tree a JS program observes when it inspects `v` (the value
`JSON.stringify` would serialize).  `fuel` bounds the depth. -/
def readTree : Nat → Store → JVal → Option Tree
  | 0, _, _ => none
  | _ + 1, _, .str x => some (.str x)
  | _ + 1, _, .nul => some .nul
  | fuel + 1, s, .ref a =>
    match s[a]? with
    | some (.obj fields) => (readFieldsWith (readTree fuel s) fields).map .obj
    | some (.arr elems) => (readElemsWith (readTree fuel s) elems).map .arr
    | none => none

/-- Shift every reference by `d` (relocation of a block of fresh nodes). -/
def shiftVal (d : Nat) : JVal → JVal
  | .ref a => .ref (a + d)
  | v => v

/-- Relocate one node by `d`. -/
def shiftNode (d : Nat) : JNode → JNode
  | .obj fields => .obj (fields.map fun kv => (kv.1, shiftVal d kv.2))
  | .arr elems => .arr (elems.map (shiftVal d))

/-- Relocate a block of nodes by `d`. -/
def shiftStore (d : Nat) (block : List JNode) : List JNode :=
  block.map (shiftNode d)

/-- References occurring directly in a value. -/
def valRefs : JVal → List Nat
  | .ref a => [a]
  | _ => []

/-- References occurring directly in a field list. -/
def fieldsRefs : List (String × JVal) → List Nat
  | [] => []
  | (_, v) :: rest => valRefs v ++ fieldsRefs rest

/-- References occurring directly in an element list. -/
def elemsRefs : List JVal → List Nat
  | [] => []
  | v :: rest => valRefs v ++ elemsRefs rest

/-- References occurring directly in a node. -/
def nodeRefs : JNode → List Nat
  | .obj fields => fieldsRefs fields
  | .arr elems => elemsRefs elems

/-- All references of `v` lie in the address interval `[lo, hi)`. -/
def valInRegion (lo hi : Nat) (v : JVal) : Bool :=
  (valRefs v).all fun r => lo ≤ r && r < hi

/-- A block of nodes whose references all stay inside the block when it is
placed at base address `B`: the region `[B, B + length)` is closed under
reachability. -/
def deltaClosed (B : Nat) (block : List JNode) : Bool :=
  block.all fun n => (nodeRefs n).all fun r => B ≤ r && r < B + block.length

/-- Run a list of property assignments `root.path.key = value` (one source
statement each, in source order). -/
def applySets : Store → JVal → List (List String × String × JVal) →
    Option Store
  | s, _, [] => some s
  | s, root, (path, k, v) :: rest =>
    match resolveAddr s root path with
    | some a => applySets (setField s a k v) root rest
    | none => none

/-- One iteration body shared by the materialization loops: deep-copy the
template, then perform the iteration's property assignments on the copy. -/
def genStep (fuel : Nat) (s : Store) (root : JVal)
    (sets : List (List String × String × JVal)) : Option (Store × JVal) :=
  match deepCopy fuel s root with
  | none => none
  | some (s1, copied) =>
    match applySets s1 copied sets with
    | none => none
    | some s2 => some (s2, copied)

/-- The index sequence of `for (let i = lo; i <= hi; i++)`. -/
def natRange (lo hi : Nat) : List Nat :=
  (List.range (hi + 1 - lo)).map (lo + ·)

/-- The materialization loop: run `genStep` for each index, pushing each
config onto `allConfigs`. -/
def materialize (fuel : Nat) (root : JVal)
    (setsOf : Nat → List (List String × String × JVal)) :
    List Nat → Store → List JVal → Option (Store × List JVal)
  | [], s, acc => some (s, acc)
  | i :: rest, s, acc =>
    match genStep fuel s root (setsOf i) with
    | none => none
    | some (s', cfg) => materialize fuel root setsOf rest s' (acc ++ [cfg])

/-- Depth fuel used for every copy/read in this file (template depth ≤ 6). -/
def copyFuel : Nat := 12

/-! #### The applications template (`scripts/applications.mjs`, whose loop
and template also appear verbatim in the first unnamed source part).
Nodes are allocated bottom-up as the object literal is evaluated:
annotations, metadata, spec, root. -/

/-- `baseApplicationConfig`, heap layout. -/
def s0App : Store :=
  [.obj [("application.thumbnail", .str "9")],
   .obj [("name", .str "test-application-n-components"),
         ("namespace", .str "NAMESPACE"),
         ("annotations", .ref 0)],
   .obj [("displayName", .str "Testing Application (100 components)")],
   .obj [("apiVersion", .str "appstudio.redhat.com/v1alpha1"),
         ("kind", .str "Application"),
         ("metadata", .ref 1),
         ("spec", .ref 2)]]

/-- Reference to `baseApplicationConfig`. -/
def appRoot : JVal := .ref 3

/-- `const NoOfApplications = 20;`. -/
def NoOfApplications : Nat := 20

/-- Name `test-application-${i}-${appendRandomString()}`. -/
def appName (i : Nat) (suffix : String) : String :=
  "test-application-" ++ Nat.repr i ++ "-" ++ suffix

/-- The three assignments of one applications-loop iteration. -/
def appSets (ns : String) (i : Nat) (suffix : String) :
    List (List String × String × JVal) :=
  [(["metadata"], "name", .str (appName i suffix)),
   (["metadata"], "namespace", .str ns),
   (["spec"], "displayName", .str ("test-application-" ++ Nat.repr i))]

/-- The applications loop `for (let i = 11; i <= NoOfApplications; i++)`. -/
def materializeApplications (ns : String) (suffixes : Nat → String)
    (noOfApplications : Nat) : Option (Store × List JVal) :=
  materialize copyFuel appRoot (fun i => appSets ns i (suffixes i))
    (natRange 11 noOfApplications) s0App []

/-- The nodes one applications iteration appends (copy of the template with
the iteration's assignments applied), written relative to base address
`4 = s0App.length`; at runtime the block is relocated by the current heap
size minus 4. -/
def appDelta (ns : String) (i : Nat) (suffix : String) : List JNode :=
  [.obj [("application.thumbnail", .str "9")],
   .obj [("name", .str (appName i suffix)),
         ("namespace", .str ns),
         ("annotations", .ref 4)],
   .obj [("displayName", .str ("test-application-" ++ Nat.repr i))],
   .obj [("apiVersion", .str "appstudio.redhat.com/v1alpha1"),
         ("kind", .str "Application"),
         ("metadata", .ref 5),
         ("spec", .ref 6)]]

/-! #### The releases template (`scripts/releases.mjs`).  Allocation order:
labels, metadata, releaseNotes, data, spec, root. -/

/-- `baseReleaseConfig`, heap layout. -/
def s0Rel : Store :=
  [.obj [],
   .obj [("namespace", .str "NAMESPACE"), ("labels", .ref 0)],
   .obj [("references", .str ""), ("synopsis", .str ""),
         ("topic", .str ""), ("description", .str "")],
   .obj [("releaseNotes", .ref 2)],
   .obj [("releasePlan", .str "RELEASE_PLAN_PLACEHOLDER"),
         ("snapshot", .str "SNAPSHOT_PLACEHOLDER"),
         ("data", .ref 3)],
   .obj [("apiVersion", .str "appstudio.redhat.com/v1alpha1"),
         ("kind", .str "Release"),
         ("metadata", .ref 1),
         ("spec", .ref 4)]]

/-- Reference to `baseReleaseConfig`. -/
def relRoot : JVal := .ref 5

/-- Name `${releasePlan}-${i}-${appendRandomString({min:5,max:8})}`. -/
def relName (releasePlan : String) (i : Nat) (suffix : String) : String :=
  releasePlan ++ "-" ++ (Nat.repr i ++ "-" ++ suffix)

/-- The six assignments of one releases-loop iteration, in source order. -/
def relSets (releasePlan snapshot ns : String) (count i : Nat)
    (suffix : String) : List (List String × String × JVal) :=
  [(["metadata"], "name", .str (relName releasePlan i suffix)),
   (["metadata"], "namespace", .str ns),
   (["spec"], "releasePlan", .str releasePlan),
   (["spec"], "snapshot", .str snapshot),
   (["spec", "data", "releaseNotes"], "synopsis",
     .str ("Automated release " ++ Nat.repr i ++ " of " ++ Nat.repr count)),
   (["spec", "data", "releaseNotes"], "description",
     .str "Generated release using kflux-scripts")]

/-- The releases loop `for (let i = 1; i <= count; i++)`. -/
def materializeReleases (releasePlan snapshot ns : String) (count : Nat)
    (suffixes : Nat → String) : Option (Store × List JVal) :=
  materialize copyFuel relRoot
    (fun i => relSets releasePlan snapshot ns count i (suffixes i))
    (natRange 1 count) s0Rel []

/-- The nodes one releases iteration appends, relative to base address
`6 = s0Rel.length`.  `metadata.name` did not exist in the template, so the
assignment appended it after `labels`. -/
def relDelta (releasePlan snapshot ns : String) (count i : Nat)
    (suffix : String) : List JNode :=
  [.obj [],
   .obj [("namespace", .str ns), ("labels", .ref 6),
         ("name", .str (relName releasePlan i suffix))],
   .obj [("references", .str ""),
         ("synopsis",
           .str ("Automated release " ++ Nat.repr i ++ " of " ++
             Nat.repr count)),
         ("topic", .str ""),
         ("description", .str "Generated release using kflux-scripts")],
   .obj [("releaseNotes", .ref 8)],
   .obj [("releasePlan", .str releasePlan),
         ("snapshot", .str snapshot),
         ("data", .ref 9)],
   .obj [("apiVersion", .str "appstudio.redhat.com/v1alpha1"),
         ("kind", .str "Release"),
         ("metadata", .ref 7),
         ("spec", .ref 10)]]

/-! #### The integration-test template (`scripts/integrationtest.mjs`).
Allocation order: annotations, metadata, three param objects, params array,
resolverRef, context object, contexts array, spec, root. -/

/-- `baseIT`, heap layout. -/
def s0IT : Store :=
  [.obj [("test.appstudio.openshift.io/kind", .str "enterprise-contract")],
   .obj [("name", .str "application-2-enterprise-contract"),
         ("annotations", .ref 0)],
   .obj [("name", .str "url"),
         ("value", .str "https://github.com/konflux-ci/build-definitions")],
   .obj [("name", .str "revision"), ("value", .str "main")],
   .obj [("name", .str "pathInRepo"),
         ("value", .str "pipelines/enterprise-contract.yaml")],
   .arr [.ref 2, .ref 3, .ref 4],
   .obj [("resolver", .str "git"), ("params", .ref 5)],
   .obj [("name", .str "application"),
         ("description",
           .str "execute the integration test in all cases - this would be the default state")],
   .arr [.ref 7],
   .obj [("application", .str "test-application-n-components"),
         ("resolverRef", .ref 6),
         ("params", .nul),
         ("contexts", .ref 8)],
   .obj [("apiVersion", .str "appstudio.redhat.com/v1beta1"),
         ("kind", .str "IntegrationTestScenario"),
         ("metadata", .ref 1),
         ("spec", .ref 9)]]

/-- Reference to `baseIT`. -/
def itRoot : JVal := .ref 10

/-- `const NoOfIntegrationTest = 3;`. -/
def NoOfIntegrationTest : Nat := 3

/-- Name `test-integration-${i}`. -/
def itName (i : Nat) : String := "test-integration-" ++ Nat.repr i

/-- The two assignments of one integration-test iteration. -/
def itSets (ns : String) (i : Nat) : List (List String × String × JVal) :=
  [(["metadata"], "name", .str (itName i)),
   (["metadata"], "namespace", .str ns)]

/-- The integration-test loop
`for (let i = 5; i <= 5 + NoOfIntegrationTest; i++)` (with the loop bound
taken as a parameter `n`). -/
def materializeIntegrationTests (ns : String) (n : Nat) :
    Option (Store × List JVal) :=
  materialize copyFuel itRoot (fun i => itSets ns i) (natRange 5 (5 + n))
    s0IT []

/-- The nodes one integration-test iteration appends, relative to base
address `11 = s0IT.length`.  `metadata.namespace` did not exist in the
template, so the assignment appended it. -/
def itDelta (ns : String) (i : Nat) : List JNode :=
  [.obj [("test.appstudio.openshift.io/kind", .str "enterprise-contract")],
   .obj [("name", .str (itName i)),
         ("annotations", .ref 11),
         ("namespace", .str ns)],
   .obj [("name", .str "url"),
         ("value", .str "https://github.com/konflux-ci/build-definitions")],
   .obj [("name", .str "revision"), ("value", .str "main")],
   .obj [("name", .str "pathInRepo"),
         ("value", .str "pipelines/enterprise-contract.yaml")],
   .arr [.ref 13, .ref 14, .ref 15],
   .obj [("resolver", .str "git"), ("params", .ref 16)],
   .obj [("name", .str "application"),
         ("description",
           .str "execute the integration test in all cases - this would be the default state")],
   .arr [.ref 18],
   .obj [("application", .str "test-application-n-components"),
         ("resolverRef", .ref 17),
         ("params", .nul),
         ("contexts", .ref 19)],
   .obj [("apiVersion", .str "appstudio.redhat.com/v1beta1"),
         ("kind", .str "IntegrationTestScenario"),
         ("metadata", .ref 12),
         ("spec", .ref 20)]]

/-- The heap blocks appended by the loop for the given index list, starting
at base address `base`; each block is the per-iteration delta relocated to
its base.  `B` is the template size the deltas are written relative to. -/
def stackFrom (B : Nat) (delta : Nat → List JNode) :
    Nat → List Nat → List JNode
  | _, [] => []
  | base, i :: rest =>
    shiftStore (base - B) (delta i) ++
      stackFrom B delta (base + (delta i).length) rest

/-- The config roots produced by the loop for the given index list. -/
def rootsFrom (B : Nat) (delta : Nat → List JNode) (r0 : Nat → JVal) :
    Nat → List Nat → List JVal
  | _, [] => []
  | base, i :: rest =>
    shiftVal (base - B) (r0 i) ::
      rootsFrom B delta r0 (base + (delta i).length) rest

/-- Base address of the `k`-th block. -/
def blockOff (delta : Nat → List JNode) : Nat → List Nat → Nat → Nat
  | base, _, 0 => base
  | base, [], _ + 1 => base
  | base, i :: rest, k + 1 => blockOff delta (base + (delta i).length) rest k

/-- The `metadata.name` string of the object `v` (the evaluation of
`v.metadata.name` against the heap). -/
def metaNameAt (s : Store) (v : JVal) : Option String :=
  match resolveAddr s v ["metadata"] with
  | some a =>
    (match s[a]? with
     | some (.obj fields) =>
       match lookupField fields "name" with
       | some (.str n) => some n
       | _ => none
     | _ => none)
  | none => none

/-- Path navigation inside one block, in the block's own unshifted
coordinates (the copy of the template imagined at base address `B`). -/
def resolveInBlock (B : Nat) (delta : List JNode) : JVal → List String →
    Option Nat
  | .ref a, [] => some a
  | .ref a, k :: path =>
    (match delta[a - B]? with
     | some (.obj fields) =>
       match lookupField fields k with
       | some v => resolveInBlock B delta v path
       | none => none
     | _ => none)
  | _, _ => none

/-- The nodes `JSON.parse(JSON.stringify(baseApplicationConfig))` appends,
before the iteration's assignments, relative to base `4`. -/
def appCopyDelta : List JNode :=
  [.obj [("application.thumbnail", .str "9")],
   .obj [("name", .str "test-application-n-components"),
         ("namespace", .str "NAMESPACE"),
         ("annotations", .ref 4)],
   .obj [("displayName", .str "Testing Application (100 components)")],
   .obj [("apiVersion", .str "appstudio.redhat.com/v1alpha1"),
         ("kind", .str "Application"),
         ("metadata", .ref 5),
         ("spec", .ref 6)]]

/-- The nodes `JSON.parse(JSON.stringify(baseReleaseConfig))` appends,
before the iteration's assignments, relative to base `6`. -/
def relCopyDelta : List JNode :=
  [.obj [],
   .obj [("namespace", .str "NAMESPACE"), ("labels", .ref 6)],
   .obj [("references", .str ""), ("synopsis", .str ""),
         ("topic", .str ""), ("description", .str "")],
   .obj [("releaseNotes", .ref 8)],
   .obj [("releasePlan", .str "RELEASE_PLAN_PLACEHOLDER"),
         ("snapshot", .str "SNAPSHOT_PLACEHOLDER"),
         ("data", .ref 9)],
   .obj [("apiVersion", .str "appstudio.redhat.com/v1alpha1"),
         ("kind", .str "Release"),
         ("metadata", .ref 7),
         ("spec", .ref 10)]]

/-- The nodes `JSON.parse(JSON.stringify(baseIT))` appends, before the
iteration's assignments, relative to base `11`. -/
def itCopyDelta : List JNode :=
  [.obj [("test.appstudio.openshift.io/kind", .str "enterprise-contract")],
   .obj [("name", .str "application-2-enterprise-contract"),
         ("annotations", .ref 11)],
   .obj [("name", .str "url"),
         ("value", .str "https://github.com/konflux-ci/build-definitions")],
   .obj [("name", .str "revision"), ("value", .str "main")],
   .obj [("name", .str "pathInRepo"),
         ("value", .str "pipelines/enterprise-contract.yaml")],
   .arr [.ref 13, .ref 14, .ref 15],
   .obj [("resolver", .str "git"), ("params", .ref 16)],
   .obj [("name", .str "application"),
         ("description",
           .str "execute the integration test in all cases - this would be the default state")],
   .arr [.ref 18],
   .obj [("application", .str "test-application-n-components"),
         ("resolverRef", .ref 17),
         ("params", .nul),
         ("contexts", .ref 19)],
   .obj [("apiVersion", .str "appstudio.redhat.com/v1beta1"),
         ("kind", .str "IntegrationTestScenario"),
         ("metadata", .ref 12),
         ("spec", .ref 20)]]

/-- Decimal digit characters of `n`, most significant first (the canonical
value of `Nat.toDigitsCore 10` with sufficient fuel). -/
def decChars (n : Nat) : List Char :=
  if h : n < 10 then [Nat.digitChar n]
  else decChars (n / 10) ++ [Nat.digitChar (n % 10)]
decreasing_by exact Nat.div_lt_self (by omega) (by omega)

/-- Left-to-right decimal decoding of a digit string. -/
def decDigitsVal : List Char → Nat → Nat
  | [], acc => acc
  | c :: cs, acc => decDigitsVal cs (acc * 10 + (c.toNat - 48))

/-! ## Theorems -/

/-! ### Claims about the utility functions (C2, C3, C5) -/

/-- C2: `checkSafetyThresholds(count)` returns `true` without prompting for
every count in `[1,10]`; for every count `> 10` it prompts and returns `true`
iff the answer, lowercased, is exactly `"y"` (so `"n"`, `""`, and
whitespace-padded answers yield `false`). -/
theorem checkSafetyThresholds_spec (count : Int) (answer : String) :
    (1 ≤ count → count ≤ 10 →
      checkSafetyThresholds count answer = (false, true)) ∧
    (count > 10 →
      (checkSafetyThresholds count answer).1 = true ∧
      ((checkSafetyThresholds count answer).2 = true ↔
        toLowerCase answer = "y")) := by
  constructor
  · intro h1 h10
    simp only [checkSafetyThresholds, if_neg (by omega : ¬ count > 10)]
  · intro hgt
    refine ⟨by simp [checkSafetyThresholds, hgt], ?_⟩
    simp [checkSafetyThresholds, hgt, beq_iff_eq]

/-- Witness for C2: count `3` proceeds without prompting; count `15` with
answer `"N"` prompts and declines, with answer `"Y"` prompts and proceeds. -/
theorem checkSafetyThresholds_spec_witness :
    checkSafetyThresholds 3 "whatever" = (false, true) ∧
    (checkSafetyThresholds 15 "N").1 = true ∧
    (checkSafetyThresholds 15 "N").2 = false ∧
    (checkSafetyThresholds 15 "Y").2 = true := by
  refine ⟨(checkSafetyThresholds_spec 3 "whatever").1 (by decide) (by decide),
    ((checkSafetyThresholds_spec 15 "N").2 (by decide)).1, ?_, ?_⟩
  · have h := ((checkSafetyThresholds_spec 15 "N").2 (by decide)).2
    rw [Bool.eq_false_iff]
    intro hc
    exact absurd (h.mp hc) (by decide)
  · exact ((checkSafetyThresholds_spec 15 "Y").2 (by decide)).2.mpr (by decide)

/-- C3 counterexample: the claim says the delay always lies in
`[DELAY/100, 2*DELAY] = [100, 20000]` ms, but for the draw `r = 0` the code
computes `0 * (20000 - 10000) + 10 = 10 < 100`. -/
theorem createResource_delay_counterexample :
    (0 : ℚ) ≤ 0 ∧ (0 : ℚ) < 1 ∧ createResourceDelay 0 = 10 ∧
    ¬ (DELAY / 100 ≤ createResourceDelay 0) := by
  refine ⟨le_refl 0, by norm_num, by norm_num [createResourceDelay, DELAY],
    by norm_num [createResourceDelay, DELAY]⟩

/-- C3 amended: for every draw `r ∈ [0,1)` the delay
`r * (DELAY*2 - DELAY) + 10` lies in the interval `[10, 10010)` milliseconds
(not in `[DELAY/100, 2*DELAY] = [100, 20000]` as claimed). -/
theorem createResource_delay_amended (r : ℚ) (h0 : 0 ≤ r) (h1 : r < 1) :
    10 ≤ createResourceDelay r ∧ createResourceDelay r < 10010 := by
  unfold createResourceDelay DELAY
  constructor
  · nlinarith
  · nlinarith

/-- Witness for C3 amended: the draw `r = 1/2` gives delay `5010 ∈ [10, 10010)`. -/
theorem createResource_delay_amended_witness :
    (0 : ℚ) ≤ 1/2 ∧ (1/2 : ℚ) < 1 ∧
    10 ≤ createResourceDelay (1/2) ∧ createResourceDelay (1/2) < 10010 := by
  refine ⟨by norm_num, by norm_num, ?_⟩
  exact createResource_delay_amended (1/2) (by norm_num) (by norm_num)

/-- A floor of `r * n` for a draw `r ∈ [0,1)` and a positive integer bound
lands in `[0, n-1]`; shared by the length draw and the character draws of
`appendRandomString`. -/
theorem floor_draw_bounds (r : ℚ) (n : ℕ) (h1 : r < 1)
    (hn : 0 < n) : (⌊r * (n : ℚ)⌋).toNat < n := by
  have hnq : (0 : ℚ) < (n : ℚ) := by exact_mod_cast hn
  have hfl : ⌊r * (n : ℚ)⌋ < (n : ℤ) := by
    apply Int.floor_lt.mpr
    push_cast
    nlinarith
  omega

/-- C5: for `min ≤ max` and any sequence of draws in `[0,1)`,
`appendRandomString({min, max})` returns a string whose length lies in
`[min, max]` and whose characters are all in `[a-z0-9]`. -/
theorem appendRandomString_spec (min max : Nat) (rLen : ℚ) (rChars : Nat → ℚ)
    (hminmax : min ≤ max) (hr0 : 0 ≤ rLen) (hr1 : rLen < 1)
    (hcs : ∀ k, 0 ≤ rChars k ∧ rChars k < 1) :
    min ≤ (appendRandomString min max rLen rChars).length ∧
    (appendRandomString min max rLen rChars).length ≤ max ∧
    ∀ c ∈ (appendRandomString min max rLen rChars).data,
      ('a' ≤ c ∧ c ≤ 'z') ∨ ('0' ≤ c ∧ c ≤ '9') := by
  have hlen : (appendRandomString min max rLen rChars).length =
      (⌊rLen * ((max : ℚ) - (min : ℚ) + 1)⌋).toNat + min := by
    simp [appendRandomString, String.length]
  have hcast : ((max : ℚ) - (min : ℚ) + 1) = ((max - min + 1 : ℕ) : ℚ) := by
    push_cast [Nat.cast_sub hminmax]
    ring
  have hbound : (⌊rLen * ((max : ℚ) - (min : ℚ) + 1)⌋).toNat <
      max - min + 1 := by
    rw [hcast]
    exact floor_draw_bounds rLen (max - min + 1) hr1 (by omega)
  refine ⟨by omega, by omega, ?_⟩
  intro c hc
  simp only [appendRandomString, List.mem_map, List.mem_range] at hc
  obtain ⟨k, -, rfl⟩ := hc
  have hidx : (⌊rChars k * ((randomChars.length : ℕ) : ℚ)⌋).toNat <
      randomChars.length :=
    floor_draw_bounds (rChars k) randomChars.length (hcs k).2 (by decide)
  have hmem : randomChars.getD
      (⌊rChars k * ((randomChars.length : ℕ) : ℚ)⌋).toNat 'a' ∈
        randomChars := by
    rw [List.getD_eq_getElem randomChars 'a' hidx]
    exact List.getElem_mem hidx
  revert hmem
  have hall : ∀ c ∈ randomChars,
      ('a' ≤ c ∧ c ≤ 'z') ∨ ('0' ≤ c ∧ c ≤ '9') := by decide
  exact hall _

/-- Witness for C5: with `min = 2`, `max = 5`, length draw `1/3` and all
character draws `1/2`, the string has length in `[2,5]` and alphanumeric
lowercase characters. -/
theorem appendRandomString_spec_witness :
    2 ≤ (appendRandomString 2 5 (1/3) fun _ => 1/2).length ∧
    (appendRandomString 2 5 (1/3) fun _ => 1/2).length ≤ 5 ∧
    ∀ c ∈ (appendRandomString 2 5 (1/3) fun _ => 1/2).data,
      ('a' ≤ c ∧ c ≤ 'z') ∨ ('0' ≤ c ∧ c ≤ '9') :=
  appendRandomString_spec 2 5 (1/3) (fun _ => 1/2) (by norm_num) (by norm_num)
    (by norm_num) (fun _ => by norm_num)

/-! ### Claim about the failure policy (C6) -/

/-- C6: failure handling is asymmetric.  A failing primary apply terminates
the process with exit code 1 after attempting exactly the configs up to and
including the failing one (independently of what comes after), while a
failing status patch never stops the mock-components loop: with all applies
succeeding, every item is processed and the loop returns normally for every
combination of patch outcomes. -/
theorem failure_asymmetry_spec (pre rest : List Bool)
    (items : List (Bool × Bool))
    (hpre : ∀ b ∈ pre, b = true) (hitems : ∀ p ∈ items, p.1 = true) :
    (∀ patchOk : Bool, patchStatus patchOk = .ok) ∧
    createResource false = .exited 1 ∧
    applyBatch (pre ++ false :: rest) = (pre.length + 1, some 1) ∧
    mockComponentsBatch items = (items.length, none) := by
  refine ⟨fun _ => rfl, rfl, ?_, ?_⟩
  · induction pre with
    | nil => rfl
    | cons b pre ih =>
      have hb : b = true := hpre b (List.mem_cons_self b pre)
      subst hb
      have hrec := ih (fun x hx => hpre x (List.mem_cons_of_mem _ hx))
      simp [applyBatch, createResource, hrec]
  · induction items with
    | nil => rfl
    | cons p items ih =>
      obtain ⟨aOk, pOk⟩ := p
      have ha : aOk = true := hitems (aOk, pOk) (List.mem_cons_self _ _)
      subst ha
      have hrec := ih (fun x hx => hitems x (List.mem_cons_of_mem _ hx))
      simp [mockComponentsBatch, createResource, patchStatus, hrec]

/-- Witness for C6: two good configs then a failing one (plus one never
reached) abort with exit 1 after three attempts; a three-item mock batch with
failing patches still processes all three items and exits normally. -/
theorem failure_asymmetry_spec_witness :
    applyBatch ([true, true] ++ false :: [true]) = (3, some 1) ∧
    mockComponentsBatch [(true, false), (true, true), (true, false)] =
      (3, none) := by
  have h := failure_asymmetry_spec [true, true] [true]
    [(true, false), (true, true), (true, false)]
    (by decide) (by decide)
  exact ⟨h.2.2.1, h.2.2.2⟩

/-! ### Claims about the Jira closer (C7, C9) -/

/-- C7: the status classification in `process_issue` is case-insensitive and
three-way.  A status lowercasing to `done`/`closed`/`resolved` increments
only the already-closed counter and records nothing; a status lowercasing to
anything else except `release pending` increments only the
not-release-pending counter and appends `(key, status, assignee)` to the
manual-review list; a status lowercasing exactly to `release pending` makes
the issue eligible for closure (dry-run skip, or transition
success/failure). -/
theorem process_issue_classification (dryRun : Bool) (st : CloserState)
    (key status assignee : String) (transitionOk : Bool) :
    (toLowerCase status = "done" ∨ toLowerCase status = "closed" ∨
        toLowerCase status = "resolved" →
      process_issue dryRun st key (.fetched status assignee) transitionOk =
        { st with alreadyClosedCount := st.alreadyClosedCount + 1 }) ∧
    (¬(toLowerCase status = "done" ∨ toLowerCase status = "closed" ∨
        toLowerCase status = "resolved") →
      toLowerCase status ≠ "release pending" →
      process_issue dryRun st key (.fetched status assignee) transitionOk =
        { st with
            nonReleasePendingIssues :=
              st.nonReleasePendingIssues ++ [(key, status, assignee)],
            notReleasePendingCount := st.notReleasePendingCount + 1 }) ∧
    (toLowerCase status = "release pending" →
      process_issue dryRun st key (.fetched status assignee) transitionOk =
        (if dryRun then { st with skippedCount := st.skippedCount + 1 }
         else if transitionOk then
           { st with successCount := st.successCount + 1 }
         else { st with failedCount := st.failedCount + 1 })) := by
  refine ⟨fun h => ?_, fun h hne => ?_, fun h => ?_⟩
  · simp [process_issue, h]
  · simp [process_issue, h, hne]
  · have hnot : ¬(toLowerCase status = "done" ∨
        toLowerCase status = "closed" ∨ toLowerCase status = "resolved") := by
      rw [h]; decide
    simp only [process_issue, hnot, if_neg hnot, h]
    simp

/-- Witness for C7: statuses `"Done"`, `"In Progress"` and
`"Release Pending"` (mixed case) hit the three branches. -/
theorem process_issue_classification_witness :
    process_issue false initialCloserState "KFLUXUI-1"
        (.fetched "Done" "Alice") true =
      { initialCloserState with alreadyClosedCount := 1 } ∧
    process_issue false initialCloserState "KFLUXUI-2"
        (.fetched "In Progress" "Bob") true =
      { initialCloserState with
          nonReleasePendingIssues := [("KFLUXUI-2", "In Progress", "Bob")],
          notReleasePendingCount := 1 } ∧
    process_issue false initialCloserState "KFLUXUI-3"
        (.fetched "Release Pending" "Carol") true =
      { initialCloserState with successCount := 1 } := by
  refine ⟨?_, ?_, ?_⟩
  · exact (process_issue_classification false initialCloserState "KFLUXUI-1"
      "Done" "Alice" true).1 (by decide)
  · exact (process_issue_classification false initialCloserState "KFLUXUI-2"
      "In Progress" "Bob" true).2.1 (by decide) (by decide)
  · exact (process_issue_classification false initialCloserState "KFLUXUI-3"
      "Release Pending" "Carol" true).2.2 (by decide)

/-- Per-issue effect on the failed counter. -/
theorem process_issue_failedCount (dryRun : Bool) (st : CloserState)
    (key : String) (f : FetchResult) (transitionOk : Bool) :
    (process_issue dryRun st key f transitionOk).failedCount =
      st.failedCount + (if issueFails dryRun (key, f, transitionOk) then 1
        else 0) := by
  cases f with
  | fetchFailed => simp [process_issue, issueFails]
  | fetched status assignee =>
    simp only [process_issue, issueFails]
    by_cases h1 : toLowerCase status = "done" ∨
        toLowerCase status = "closed" ∨ toLowerCase status = "resolved"
    · have hne : toLowerCase status ≠ "release pending" := by
        rcases h1 with h | h | h <;> rw [h] <;> decide
      simp [h1, hne]
    · by_cases h2 : toLowerCase status = "release pending"
      · cases dryRun <;> cases transitionOk <;> simp [h1, h2]
      · simp [h1, h2]

/-- Fold version of `process_issue_failedCount`. -/
theorem runCloser_failedCount (dryRun : Bool)
    (issues : List (String × FetchResult × Bool)) :
    (runCloser dryRun issues).failedCount =
      (issues.filter (issueFails dryRun)).length := by
  suffices h : ∀ (st : CloserState) (l : List (String × FetchResult × Bool)),
      (l.foldl (fun st i => process_issue dryRun st i.1 i.2.1 i.2.2)
        st).failedCount =
        st.failedCount + (l.filter (issueFails dryRun)).length by
    simpa [runCloser, initialCloserState] using h initialCloserState issues
  intro st l
  induction l generalizing st with
  | nil => simp
  | cons i l ih =>
    simp only [List.foldl_cons, List.filter_cons]
    rw [ih]
    rw [process_issue_failedCount]
    by_cases hf : issueFails dryRun i
    · obtain ⟨k, f, t⟩ := i
      simp [hf]
      omega
    · obtain ⟨k, f, t⟩ := i
      simp [hf]

/-- C9: after the per-issue loop, the exit status is nonzero iff the failed
counter is positive, the failed counter counts exactly the issues whose
processing failed, and a run without failures exits 0 regardless of the
other counters. -/
theorem closer_exit_status_spec (dryRun : Bool)
    (issues : List (String × FetchResult × Bool)) :
    (closerExitCode (runCloser dryRun issues) ≠ 0 ↔
      (runCloser dryRun issues).failedCount > 0) ∧
    (runCloser dryRun issues).failedCount =
      (issues.filter (issueFails dryRun)).length ∧
    ((∀ i ∈ issues, issueFails dryRun i = false) →
      closerExitCode (runCloser dryRun issues) = 0) := by
  refine ⟨?_, runCloser_failedCount dryRun issues, ?_⟩
  · unfold closerExitCode
    by_cases h : (runCloser dryRun issues).failedCount > 0 <;> simp [h]
  · intro hall
    have hfilter : issues.filter (issueFails dryRun) = [] :=
      List.filter_eq_nil_iff.mpr (fun i hi => by simp [hall i hi])
    unfold closerExitCode
    rw [runCloser_failedCount, hfilter]
    simp

/-- Witness for C9: a run over one already-closed issue, one skipped issue
and one dry-run-skipped issue has zero failures and exits 0; the iff holds
for it. -/
theorem closer_exit_status_spec_witness :
    (closerExitCode (runCloser true
        [("A-1", .fetched "Done" "a", true),
         ("B-2", .fetched "In Progress" "b", true),
         ("C-3", .fetched "Release Pending" "c", true)]) ≠ 0 ↔
      (runCloser true
        [("A-1", .fetched "Done" "a", true),
         ("B-2", .fetched "In Progress" "b", true),
         ("C-3", .fetched "Release Pending" "c", true)]).failedCount > 0) ∧
    closerExitCode (runCloser true
        [("A-1", .fetched "Done" "a", true),
         ("B-2", .fetched "In Progress" "b", true),
         ("C-3", .fetched "Release Pending" "c", true)]) = 0 := by
  refine ⟨(closer_exit_status_spec true _).1, ?_⟩
  exact (closer_exit_status_spec true
    [("A-1", .fetched "Done" "a", true),
     ("B-2", .fetched "In Progress" "b", true),
     ("C-3", .fetched "Release Pending" "c", true)]).2.2 (by decide)

/-! ### Claim about the mock-Component spec shapes (C4) -/

/-- C4: the mock-Component spec shape is a deterministic function of the
index with period 6 — `makeSpec i` factors through `i % 6` and satisfies
`makeSpec (i+6) = makeSpec i` — and the variant-specific shapes hold:
variant 0 has zero source versions, variant 1 has one, variant 5 has ten. -/
theorem makeSpec_periodicity (i : Nat) :
    makeSpec (i + 6) = makeSpec i ∧
    makeSpec i = makeSpec (i % 6) ∧
    (i % 6 = 0 → sourceVersionsCount (makeSpec i) = some 0) ∧
    (i % 6 = 1 → sourceVersionsCount (makeSpec i) = some 1) ∧
    (i % 6 = 5 → sourceVersionsCount (makeSpec i) = some 10) := by
  have hmod : (i + 6) % 6 = i % 6 := Nat.add_mod_right i 6
  have hself : (i % 6) % 6 = i % 6 := Nat.mod_mod_of_dvd i (dvd_refl 6)
  refine ⟨by simp only [makeSpec, hmod], by simp only [makeSpec, hself],
    fun h => ?_, fun h => ?_, fun h => ?_⟩ <;>
    simp [makeSpec, h, sourceVersionsCount, lookupTreeField, commonSource]

/-- Witness for C4: indices 12, 7 and 11 pick variants 0, 1 and 5 with 0, 1
and 10 source versions, and the period-6 equality holds at 12. -/
theorem makeSpec_periodicity_witness :
    makeSpec 18 = makeSpec 12 ∧
    sourceVersionsCount (makeSpec 12) = some 0 ∧
    sourceVersionsCount (makeSpec 7) = some 1 ∧
    sourceVersionsCount (makeSpec 11) = some 10 :=
  ⟨(makeSpec_periodicity 12).1,
   (makeSpec_periodicity 12).2.2.1 (by decide),
   (makeSpec_periodicity 7).2.2.2.1 (by decide),
   (makeSpec_periodicity 11).2.2.2.2 (by decide)⟩

/-! ### Claim about issue-key extraction (C8) -/

/-- C8: extraction over the scenario text yields exactly
`{KFLUXUI-123, ROK-818}` — the lowercase `kfluxui-5` is not matched — and a
grep-matchable token with only one character before the dash (`A-1`) is
discarded by the stricter validator. -/
theorem extract_jira_issues_scenario :
    extract_jira_issues
        "Fixes KFLUXUI-123 and ROK-818, see also kfluxui-5 (lowercase, ignored)" =
      ["KFLUXUI-123", "ROK-818"] ∧
    grepIssueKeys "See A-1 and AB-2" = ["A-1", "AB-2"] ∧
    validate_issue_key "A-1" = false ∧
    extract_jira_issues "See A-1 and AB-2" = ["AB-2"] := by
  refine ⟨by decide, by decide, by decide, by decide⟩

/-! ### Decimal representation facts (for name uniqueness) -/

/-- `Nat.toDigitsCore` with sufficient fuel produces `decChars`. -/
theorem toDigitsCore_eq_decChars :
    ∀ (f n : Nat) (l : List Char), n < f →
      Nat.toDigitsCore 10 f n l = decChars n ++ l := by
  intro f
  induction f with
  | zero => intro n l h; omega
  | succ f ih =>
    intro n l h
    by_cases h10 : n / 10 = 0
    · have hn : n < 10 := by omega
      have hstep : Nat.toDigitsCore 10 (f + 1) n l =
          Nat.digitChar (n % 10) :: l := by
        rw [Nat.toDigitsCore]
        exact if_pos h10
      rw [hstep]
      conv_rhs => rw [decChars]
      rw [dif_pos hn, Nat.mod_eq_of_lt hn]
      rfl
    · have hn : ¬ n < 10 := by omega
      have hdiv : n / 10 < f := by omega
      have hstep : Nat.toDigitsCore 10 (f + 1) n l =
          Nat.toDigitsCore 10 f (n / 10) (Nat.digitChar (n % 10) :: l) := by
        rw [Nat.toDigitsCore]
        exact if_neg h10
      rw [hstep, ih _ _ hdiv]
      conv_rhs => rw [decChars]
      rw [dif_neg hn, List.append_assoc]
      rfl

/-- The characters of `Nat.repr n` are `decChars n`. -/
theorem repr_data_eq (n : Nat) : (Nat.repr n).data = decChars n := by
  have h : Nat.toDigitsCore 10 (n + 1) n [] = decChars n ++ [] :=
    toDigitsCore_eq_decChars (n + 1) n [] (by omega)
  show (Nat.toDigitsCore 10 (n + 1) n []).asString.data = decChars n
  rw [h, List.append_nil]
  rfl

/-- Digit characters are digits. -/
theorem digitChar_isDigit (d : Nat) (h : d < 10) :
    (Nat.digitChar d).isDigit = true := by
  interval_cases d <;> decide

/-- Digit characters decode back to their digit. -/
theorem digitChar_val (d : Nat) (h : d < 10) :
    (Nat.digitChar d).toNat - 48 = d := by
  interval_cases d <;> decide

/-- Every character of `decChars n` is a digit. -/
theorem decChars_isDigit (n : Nat) : ∀ c ∈ decChars n, c.isDigit = true := by
  induction n using Nat.strong_induction_on with
  | _ n ih =>
    rw [decChars]
    by_cases h : n < 10
    · rw [dif_pos h]
      intro c hc
      rw [List.mem_singleton] at hc
      subst hc
      exact digitChar_isDigit n h
    · rw [dif_neg h]
      intro c hc
      rcases List.mem_append.mp hc with hc' | hc'
      · exact ih (n / 10) (Nat.div_lt_self (by omega) (by omega)) c hc'
      · rw [List.mem_singleton] at hc'
        subst hc'
        exact digitChar_isDigit _ (Nat.mod_lt _ (by omega))

/-- Decoding distributes over append. -/
theorem decDigitsVal_append (xs ys : List Char) (acc : Nat) :
    decDigitsVal (xs ++ ys) acc = decDigitsVal ys (decDigitsVal xs acc) := by
  induction xs generalizing acc with
  | nil => rfl
  | cons c cs ih => simp [decDigitsVal, ih]

/-- `decChars` decodes back to the number it represents. -/
theorem decChars_decode (n : Nat) : decDigitsVal (decChars n) 0 = n := by
  induction n using Nat.strong_induction_on with
  | _ n ih =>
    rw [decChars]
    by_cases h : n < 10
    · rw [dif_pos h]
      show decDigitsVal [] (0 * 10 + ((Nat.digitChar n).toNat - 48)) = n
      rw [decDigitsVal, digitChar_val n h]
      omega
    · rw [dif_neg h, decDigitsVal_append,
        ih (n / 10) (Nat.div_lt_self (by omega) (by omega))]
      show decDigitsVal [] (n / 10 * 10 + ((Nat.digitChar (n % 10)).toNat - 48)) = n
      rw [decDigitsVal, digitChar_val _ (Nat.mod_lt _ (by omega))]
      omega

/-- `Nat.repr` is injective. -/
theorem repr_injective {m n : Nat} (h : Nat.repr m = Nat.repr n) : m = n := by
  have hchars : decChars m = decChars n := by
    rw [← repr_data_eq, ← repr_data_eq, h]
  have hm := decChars_decode m
  rw [hchars, decChars_decode n] at hm
  exact hm.symm

/-- `Nat.repr` never contains a dash. -/
theorem repr_no_dash (n : Nat) : '-' ∉ (Nat.repr n).data := by
  rw [repr_data_eq]
  intro hmem
  exact absurd (decChars_isDigit n '-' hmem) (by decide)

/-- A string of the form `a-b` with dash-free `a` determines `a` and `b`. -/
theorem dash_split : ∀ (a b c e : List Char), '-' ∉ a → '-' ∉ c →
    a ++ '-' :: b = c ++ '-' :: e → a = c ∧ b = e := by
  intro a
  induction a with
  | nil =>
    intro b c e _ hc h
    cases c with
    | nil => simpa using h
    | cons y c =>
      simp only [List.nil_append, List.cons_append, List.cons.injEq] at h
      exact absurd (h.1 ▸ List.mem_cons_self y c) hc
  | cons x a ih =>
    intro b c e ha hc h
    cases c with
    | nil =>
      simp only [List.cons_append, List.nil_append, List.cons.injEq] at h
      exact absurd (h.1 ▸ List.mem_cons_self x a) ha
    | cons y c =>
      simp only [List.cons_append, List.cons.injEq] at h
      obtain ⟨rfl, h2⟩ := h
      obtain ⟨rfl, rfl⟩ := ih b c e (fun hm => ha (List.mem_cons_of_mem _ hm))
        (fun hm => hc (List.mem_cons_of_mem _ hm)) h2
      exact ⟨rfl, rfl⟩

/-- Generic distinctness of `stem ++ i ++ "-" ++ suffix` names: with a
common stem and dash-free suffixes, different indices give different
names. -/
theorem indexed_name_ne (stem : String) (i j : Nat) (si sj : String)
    (hsi : '-' ∉ si.data) (hsj : '-' ∉ sj.data) (hne : i ≠ j) :
    stem ++ Nat.repr i ++ "-" ++ si ≠ stem ++ Nat.repr j ++ "-" ++ sj := by
  intro h
  apply hne
  have hd := congrArg String.data h
  have hdash : ("-" : String).data = ['-'] := rfl
  simp only [String.data_append, hdash, List.append_assoc,
    List.singleton_append] at hd
  have h1 := List.append_cancel_left hd
  have h2 := (dash_split _ _ _ _ (repr_no_dash i) (repr_no_dash j) h1).1
  have hchars : decChars i = decChars j := by
    rw [← repr_data_eq, ← repr_data_eq]
    exact h2
  have hi := decChars_decode i
  rw [hchars, decChars_decode j] at hi
  exact hi.symm

/-! ### Basic heap lemmas -/

/-- Writing at `u.length + k` writes into the appended block. -/
theorem set_append_add (u d : Store) (k : Nat) (n : JNode) :
    (u ++ d).set (u.length + k) n = u ++ d.set k n := by
  have h : u.length + k - u.length = k := by omega
  rw [List.set_append_right _ _ (by omega), h]

/-- Relocation by zero is the identity on values. -/
theorem shiftVal_zero (v : JVal) : shiftVal 0 v = v := by
  cases v <;> simp [shiftVal]

/-- Relocation by zero is the identity on nodes. -/
theorem shiftNode_zero (n : JNode) : shiftNode 0 n = n := by
  cases n with
  | obj fields =>
    simp only [shiftNode]
    congr 1
    induction fields with
    | nil => rfl
    | cons kv rest ih => simp [shiftVal_zero, ih]
  | arr elems =>
    simp only [shiftNode]
    congr 1
    induction elems with
    | nil => rfl
    | cons v rest ih => simp [shiftVal_zero, ih]

/-- Length of a relocated block. -/
theorem shiftStore_length (d : Nat) (Δ : List JNode) :
    (shiftStore d Δ).length = Δ.length := by
  simp [shiftStore]

/-- Relocation distributes over append. -/
theorem shiftStore_append (d : Nat) (Δ1 Δ2 : List JNode) :
    shiftStore d (Δ1 ++ Δ2) = shiftStore d Δ1 ++ shiftStore d Δ2 := by
  simp [shiftStore]

/-- Lookup in a relocated block. -/
theorem shiftStore_getElem? (d : Nat) (Δ : List JNode) (j : Nat) :
    (shiftStore d Δ)[j]? = (Δ[j]?).map (shiftNode d) := by
  simp [shiftStore]

/-- Field lookup commutes with relocation. -/
theorem lookupField_map_shift (d : Nat) (fields : List (String × JVal))
    (k : String) :
    lookupField (fields.map fun kv => (kv.1, shiftVal d kv.2)) k =
      (lookupField fields k).map (shiftVal d) := by
  induction fields with
  | nil => rfl
  | cons kv rest ih =>
    obtain ⟨k', v'⟩ := kv
    by_cases h : k' = k <;> simp [lookupField, h, ih]

/-- Values without references are fixed by relocation. -/
theorem shiftVal_of_refless (d : Nat) (v : JVal) (h : valRefs v = []) :
    shiftVal d v = v := by
  cases v <;> simp_all [valRefs, shiftVal]

/-- Field assignment with a reference-free value commutes with
relocation. -/
theorem setFieldList_map_shift (d : Nat) (fields : List (String × JVal))
    (k : String) (v : JVal) (hv : valRefs v = []) :
    setFieldList (fields.map fun kv => (kv.1, shiftVal d kv.2)) k v =
      (setFieldList fields k v).map fun kv => (kv.1, shiftVal d kv.2) := by
  induction fields with
  | nil => simp [setFieldList, shiftVal_of_refless d v hv]
  | cons kv rest ih =>
    obtain ⟨k', v'⟩ := kv
    by_cases h : k' = k <;>
      simp [setFieldList, h, ih, shiftVal_of_refless d v hv]

/-- The references of an assigned field list come from the original list or
the assigned value. -/
theorem fieldsRefs_setFieldList (fields : List (String × JVal)) (k : String)
    (v : JVal) :
    ∀ r ∈ fieldsRefs (setFieldList fields k v),
      r ∈ fieldsRefs fields ∨ r ∈ valRefs v := by
  induction fields with
  | nil =>
    intro r hr
    simp only [setFieldList, fieldsRefs, List.append_nil] at hr
    exact Or.inr hr
  | cons kv rest ih =>
    obtain ⟨k', v'⟩ := kv
    intro r hr
    by_cases h : k' = k
    · simp only [setFieldList, if_pos h, fieldsRefs] at hr
      rcases List.mem_append.mp hr with h' | h'
      · exact Or.inr h'
      · exact Or.inl (by simp [fieldsRefs]; right; exact h')
    · simp only [setFieldList, if_neg h, fieldsRefs] at hr
      rcases List.mem_append.mp hr with h' | h'
      · exact Or.inl (by simp [fieldsRefs]; left; exact h')
      · rcases ih r h' with h'' | h''
        · exact Or.inl (by simp [fieldsRefs]; right; exact h'')
        · exact Or.inr h''

/-- Membership form of a field's references. -/
theorem valRefs_mem_fieldsRefs :
    ∀ (fields : List (String × JVal)) (kv : String × JVal),
      kv ∈ fields → ∀ r ∈ valRefs kv.2, r ∈ fieldsRefs fields := by
  intro fields
  induction fields with
  | nil => intro kv h; simp at h
  | cons kv0 rest ih =>
    intro kv h r hr
    obtain ⟨k0, v0⟩ := kv0
    rcases List.mem_cons.mp h with h' | h'
    · subst h'
      simp [fieldsRefs]
      exact Or.inl hr
    · simp [fieldsRefs]
      exact Or.inr (ih kv h' r hr)

/-- Membership form of an element's references. -/
theorem valRefs_mem_elemsRefs :
    ∀ (elems : List JVal) (v : JVal),
      v ∈ elems → ∀ r ∈ valRefs v, r ∈ elemsRefs elems := by
  intro elems
  induction elems with
  | nil => intro v h; simp at h
  | cons e rest ih =>
    intro v h r hr
    rcases List.mem_cons.mp h with h' | h'
    · subst h'
      simp [elemsRefs]
      exact Or.inl hr
    · simp [elemsRefs]
      exact Or.inr (ih v h' r hr)

/-- Unfolding of the `valInRegion` boolean. -/
theorem valInRegion_iff (lo hi : Nat) (v : JVal) :
    valInRegion lo hi v = true ↔ ∀ r ∈ valRefs v, lo ≤ r ∧ r < hi := by
  simp [valInRegion, List.all_eq_true]

/-- Unfolding of the `deltaClosed` boolean. -/
theorem deltaClosed_iff (B : Nat) (Δ : List JNode) :
    deltaClosed B Δ = true ↔
      ∀ n ∈ Δ, ∀ r ∈ nodeRefs n, B ≤ r ∧ r < B + Δ.length := by
  simp [deltaClosed, List.all_eq_true]

/-- In-place node replacement preserves closedness if the new node's
references stay in the region. -/
theorem deltaClosed_set (B : Nat) (Δ : List JNode) (m : Nat) (n : JNode)
    (hΔ : deltaClosed B Δ = true)
    (hn : ∀ r ∈ nodeRefs n, B ≤ r ∧ r < B + Δ.length) :
    deltaClosed B (Δ.set m n) = true := by
  rw [deltaClosed_iff] at hΔ ⊢
  intro n' hn' r hr
  rw [List.length_set]
  rcases List.mem_or_eq_of_mem_set hn' with h | h
  · exact hΔ n' h r hr
  · subst h
    exact hn r hr

/-! ### Reading a closed block is independent of its location

`readTree_block` is the workhorse: a closed block of nodes reads the same in
any two stores containing (suitably relocated) copies of it, regardless of
what the rest of either store looks like.  With `d0 = 0` it specializes to
"later allocations and writes outside the block do not change what a config
reads as". -/

/-- Reading mapped field lists under pointwise-equal readers. -/
theorem readFieldsWith_map_congr (g g' : JVal → Option Tree)
    (f f' : JVal → JVal) (fields : List (String × JVal))
    (h : ∀ kv ∈ fields, g (f kv.2) = g' (f' kv.2)) :
    readFieldsWith g (fields.map fun kv => (kv.1, f kv.2)) =
      readFieldsWith g' (fields.map fun kv => (kv.1, f' kv.2)) := by
  induction fields with
  | nil => rfl
  | cons kv rest ih =>
    simp only [List.map_cons, readFieldsWith]
    rw [h kv (List.mem_cons_self _ _),
      ih (fun kv' h' => h kv' (List.mem_cons_of_mem _ h'))]

/-- Reading mapped element lists under pointwise-equal readers. -/
theorem readElemsWith_map_congr (g g' : JVal → Option Tree)
    (f f' : JVal → JVal) (elems : List JVal)
    (h : ∀ v ∈ elems, g (f v) = g' (f' v)) :
    readElemsWith g (elems.map f) = readElemsWith g' (elems.map f') := by
  induction elems with
  | nil => rfl
  | cons v rest ih =>
    simp only [List.map_cons, readElemsWith]
    rw [h v (List.mem_cons_self _ _),
      ih (fun v' h' => h v' (List.mem_cons_of_mem _ h'))]

/-- A value confined to a closed block reads the same tree out of any store
containing a relocated copy of the block. -/
theorem readTree_block (B : Nat) (Δ : List JNode)
    (hcl : deltaClosed B Δ = true) :
    ∀ (fuel : Nat) (t t0 : Store) (d d0 : Nat),
      (∀ j, j < Δ.length → t[B + d + j]? = (Δ[j]?).map (shiftNode d)) →
      (∀ j, j < Δ.length → t0[B + d0 + j]? = (Δ[j]?).map (shiftNode d0)) →
      ∀ v : JVal, valInRegion B (B + Δ.length) v = true →
      readTree fuel t (shiftVal d v) = readTree fuel t0 (shiftVal d0 v) := by
  intro fuel
  induction fuel with
  | zero => intro t t0 d d0 ht ht0 v hv; rfl
  | succ fuel ih =>
    intro t t0 d d0 ht ht0 v hv
    cases v with
    | str x => rfl
    | nul => rfl
    | ref a =>
      have hreg := (valInRegion_iff _ _ _).mp hv a (by simp [valRefs])
      have hj : a - B < Δ.length := by omega
      obtain ⟨node, hnode⟩ : ∃ n, Δ[a - B]? = some n :=
        ⟨_, List.getElem?_eq_getElem hj⟩
      have hmemΔ : node ∈ Δ := List.getElem?_mem hnode
      have h1 : t[a + d]? = some (shiftNode d node) := by
        rw [(by omega : a + d = B + d + (a - B)), ht (a - B) hj, hnode]
        rfl
      have h2 : t0[a + d0]? = some (shiftNode d0 node) := by
        rw [(by omega : a + d0 = B + d0 + (a - B)), ht0 (a - B) hj, hnode]
        rfl
      have hrefs := (deltaClosed_iff _ _).mp hcl node hmemΔ
      cases node with
      | obj fields =>
        show readTree (fuel + 1) t (.ref (a + d)) =
          readTree (fuel + 1) t0 (.ref (a + d0))
        simp only [readTree, h1, h2, shiftNode]
        congr 1
        apply readFieldsWith_map_congr
        intro kv hkv
        apply ih t t0 d d0 ht ht0 kv.2
        rw [valInRegion_iff]
        intro r hr
        exact hrefs r (valRefs_mem_fieldsRefs fields kv hkv r hr)
      | arr elems =>
        show readTree (fuel + 1) t (.ref (a + d)) =
          readTree (fuel + 1) t0 (.ref (a + d0))
        simp only [readTree, h1, h2, shiftNode]
        congr 1
        apply readElemsWith_map_congr
        intro v' hv'
        apply ih t t0 d d0 ht ht0 v'
        rw [valInRegion_iff]
        intro r hr
        exact hrefs r (valRefs_mem_elemsRefs elems v' hv' r hr)

/-- A successful field lookup is a membership. -/
theorem lookupField_mem : ∀ (fields : List (String × JVal)) (k : String)
    (v : JVal), lookupField fields k = some v → (k, v) ∈ fields := by
  intro fields
  induction fields with
  | nil => intro k v h; simp [lookupField] at h
  | cons kv rest ih =>
    intro k v h
    obtain ⟨k', v'⟩ := kv
    by_cases hk : k' = k
    · subst hk
      simp [lookupField] at h
      subst h
      exact List.mem_cons_self _ _
    · simp only [lookupField, if_neg hk] at h
      exact List.mem_cons_of_mem _ (ih k v h)

/-- Path resolution from a value confined to a closed block lands at the
relocated in-block address, in any store containing a relocated copy. -/
theorem resolveAddr_block (B : Nat) (Δ : List JNode)
    (hcl : deltaClosed B Δ = true) :
    ∀ (path : List String) (t : Store) (d : Nat),
      (∀ j, j < Δ.length → t[B + d + j]? = (Δ[j]?).map (shiftNode d)) →
      ∀ v : JVal, valInRegion B (B + Δ.length) v = true →
      resolveAddr t (shiftVal d v) path =
        (resolveInBlock B Δ v path).map (· + d) := by
  intro path
  induction path with
  | nil =>
    intro t d ht v hv
    cases v <;> rfl
  | cons k path ih =>
    intro t d ht v hv
    cases v with
    | str x => rfl
    | nul => rfl
    | ref a =>
      have hreg := (valInRegion_iff _ _ _).mp hv a (by simp [valRefs])
      have hj : a - B < Δ.length := by omega
      obtain ⟨node, hnode⟩ : ∃ n, Δ[a - B]? = some n :=
        ⟨_, List.getElem?_eq_getElem hj⟩
      have hmemΔ : node ∈ Δ := List.getElem?_mem hnode
      have h1 : t[a + d]? = some (shiftNode d node) := by
        rw [(by omega : a + d = B + d + (a - B)), ht (a - B) hj, hnode]
        rfl
      have hrefs := (deltaClosed_iff _ _).mp hcl node hmemΔ
      cases node with
      | obj fields =>
        show resolveAddr t (.ref (a + d)) (k :: path) = _
        simp only [resolveAddr, h1, shiftNode, resolveInBlock, hnode,
          lookupField_map_shift]
        cases hlk : lookupField fields k with
        | none => rfl
        | some v' =>
          have hv' : valInRegion B (B + Δ.length) v' = true := by
            rw [valInRegion_iff]
            intro r hr
            exact hrefs r (valRefs_mem_fieldsRefs fields (k, v')
              (lookupField_mem fields k v' hlk) r hr)
          simpa using ih t d ht v' hv'
      | arr elems =>
        show resolveAddr t (.ref (a + d)) (k :: path) = _
        simp only [resolveAddr, h1, shiftNode, resolveInBlock, hnode]
        rfl

/-- In-block resolution stays in the block. -/
theorem resolveInBlock_region (B : Nat) (Δ : List JNode)
    (hcl : deltaClosed B Δ = true) :
    ∀ (path : List String) (v : JVal),
      valInRegion B (B + Δ.length) v = true →
      ∀ a, resolveInBlock B Δ v path = some a →
        B ≤ a ∧ a < B + Δ.length := by
  intro path
  induction path with
  | nil =>
    intro v hv a ha
    cases v with
    | ref b =>
      simp only [resolveInBlock, Option.some.injEq] at ha
      subst ha
      exact (valInRegion_iff _ _ _).mp hv b (by simp [valRefs])
    | str x => simp [resolveInBlock] at ha
    | nul => simp [resolveInBlock] at ha
  | cons k path ih =>
    intro v hv a ha
    cases v with
    | str x => simp [resolveInBlock] at ha
    | nul => simp [resolveInBlock] at ha
    | ref b =>
      have hreg := (valInRegion_iff _ _ _).mp hv b (by simp [valRefs])
      have hj : b - B < Δ.length := by omega
      obtain ⟨node, hnode⟩ : ∃ n, Δ[b - B]? = some n :=
        ⟨_, List.getElem?_eq_getElem hj⟩
      have hmemΔ : node ∈ Δ := List.getElem?_mem hnode
      have hrefs := (deltaClosed_iff _ _).mp hcl node hmemΔ
      cases node with
      | obj fields =>
        simp only [resolveInBlock, hnode] at ha
        cases hlk : lookupField fields k with
        | none => rw [hlk] at ha; simp at ha
        | some v' =>
          rw [hlk] at ha
          refine ih v' ?_ a ha
          rw [valInRegion_iff]
          intro r hr
          exact hrefs r (valRefs_mem_fieldsRefs fields (k, v')
            (lookupField_mem fields k v' hlk) r hr)
      | arr elems =>
        simp only [resolveInBlock, hnode] at ha
        exact absurd ha (by simp)

/-! ### Relocation of one loop iteration

A deep copy and the subsequent property assignments behave the same whether
they run directly after the template heap (`s0fix`) or in any larger heap
that agrees with it below `B = s0fix.length`; the appended nodes are the
same up to relocation by `s.length - B`.  This lets every per-template fact
be established once, by computation, on the run starting at the template
heap. -/

/-- Relocation of `copyFieldsWith`, given relocation of the element copy. -/
theorem copyFieldsWith_reloc (B : Nat) (s0fix s : Store)
    (cp : Store → JVal → Option (Store × JVal))
    (hcp : ∀ (v : JVal), valInRegion 0 B v = true →
      ∀ (Δp : List JNode) (s1 : Store) (v1 : JVal),
        cp (s0fix ++ Δp) v = some (s1, v1) →
        ∃ Δn, s1 = s0fix ++ (Δp ++ Δn) ∧
          cp (s ++ shiftStore (s.length - B) Δp) v =
            some (s ++ shiftStore (s.length - B) (Δp ++ Δn),
              shiftVal (s.length - B) v1)) :
    ∀ (fields : List (String × JVal)),
      (∀ kv ∈ fields, valInRegion 0 B kv.2 = true) →
      ∀ (Δp : List JNode) (s1 : Store) (fields1 : List (String × JVal)),
        copyFieldsWith cp (s0fix ++ Δp) fields = some (s1, fields1) →
        ∃ Δn, s1 = s0fix ++ (Δp ++ Δn) ∧
          copyFieldsWith cp (s ++ shiftStore (s.length - B) Δp) fields =
            some (s ++ shiftStore (s.length - B) (Δp ++ Δn),
              fields1.map fun kv => (kv.1, shiftVal (s.length - B) kv.2)) := by
  intro fields
  induction fields with
  | nil =>
    intro _ Δp s1 fields1 h
    simp only [copyFieldsWith, Option.some.injEq, Prod.mk.injEq] at h
    obtain ⟨rfl, rfl⟩ := h
    exact ⟨[], by simp [copyFieldsWith]⟩
  | cons kv rest ih =>
    obtain ⟨k, v⟩ := kv
    intro hf Δp s1 fields1 h
    rw [copyFieldsWith] at h
    cases hcv : cp (s0fix ++ Δp) v with
    | none => simp only [hcv] at h; exact absurd h (by simp)
    | some p =>
      obtain ⟨s', v'⟩ := p
      simp only [hcv] at h
      cases hcr : copyFieldsWith cp s' rest with
      | none => simp only [hcr] at h; exact absurd h (by simp)
      | some q =>
        obtain ⟨s'', rest'⟩ := q
        simp only [hcr] at h
        simp only [Option.some.injEq, Prod.mk.injEq] at h
        obtain ⟨rfl, rfl⟩ := h
        obtain ⟨Δn1, rfl, hcp'⟩ :=
          hcp v (hf (k, v) (List.mem_cons_self _ _)) Δp s' v' hcv
        obtain ⟨Δn2, rfl, hcr'⟩ :=
          ih (fun kv h' => hf kv (List.mem_cons_of_mem _ h'))
            (Δp ++ Δn1) s'' rest' hcr
        refine ⟨Δn1 ++ Δn2, by rw [List.append_assoc], ?_⟩
        simp only [copyFieldsWith, hcp', hcr']
        simp [List.append_assoc]

/-- Relocation of `copyElemsWith`, given relocation of the element copy. -/
theorem copyElemsWith_reloc (B : Nat) (s0fix s : Store)
    (cp : Store → JVal → Option (Store × JVal))
    (hcp : ∀ (v : JVal), valInRegion 0 B v = true →
      ∀ (Δp : List JNode) (s1 : Store) (v1 : JVal),
        cp (s0fix ++ Δp) v = some (s1, v1) →
        ∃ Δn, s1 = s0fix ++ (Δp ++ Δn) ∧
          cp (s ++ shiftStore (s.length - B) Δp) v =
            some (s ++ shiftStore (s.length - B) (Δp ++ Δn),
              shiftVal (s.length - B) v1)) :
    ∀ (elems : List JVal),
      (∀ v ∈ elems, valInRegion 0 B v = true) →
      ∀ (Δp : List JNode) (s1 : Store) (elems1 : List JVal),
        copyElemsWith cp (s0fix ++ Δp) elems = some (s1, elems1) →
        ∃ Δn, s1 = s0fix ++ (Δp ++ Δn) ∧
          copyElemsWith cp (s ++ shiftStore (s.length - B) Δp) elems =
            some (s ++ shiftStore (s.length - B) (Δp ++ Δn),
              elems1.map (shiftVal (s.length - B))) := by
  intro elems
  induction elems with
  | nil =>
    intro _ Δp s1 elems1 h
    simp only [copyElemsWith, Option.some.injEq, Prod.mk.injEq] at h
    obtain ⟨rfl, rfl⟩ := h
    exact ⟨[], by simp [copyElemsWith]⟩
  | cons v rest ih =>
    intro hf Δp s1 elems1 h
    rw [copyElemsWith] at h
    cases hcv : cp (s0fix ++ Δp) v with
    | none => simp only [hcv] at h; exact absurd h (by simp)
    | some p =>
      obtain ⟨s', v'⟩ := p
      simp only [hcv] at h
      cases hcr : copyElemsWith cp s' rest with
      | none => simp only [hcr] at h; exact absurd h (by simp)
      | some q =>
        obtain ⟨s'', rest'⟩ := q
        simp only [hcr] at h
        simp only [Option.some.injEq, Prod.mk.injEq] at h
        obtain ⟨rfl, rfl⟩ := h
        obtain ⟨Δn1, rfl, hcp'⟩ :=
          hcp v (hf v (List.mem_cons_self _ _)) Δp s' v' hcv
        obtain ⟨Δn2, rfl, hcr'⟩ :=
          ih (fun v0 h' => hf v0 (List.mem_cons_of_mem _ h'))
            (Δp ++ Δn1) s'' rest' hcr
        refine ⟨Δn1 ++ Δn2, by rw [List.append_assoc], ?_⟩
        simp only [copyElemsWith, hcp', hcr']
        simp [List.append_assoc]

/-- Deep-copy relocation: running the copy in a bigger heap that agrees with
the template heap below `B` appends the same nodes, relocated by
`s.length - B`, and returns the relocated root value. -/
theorem deepCopy_reloc (B : Nat) (s0fix s : Store)
    (hB : s0fix.length = B) (hcl : deltaClosed 0 s0fix = true)
    (hsB : B ≤ s.length) (hag : ∀ a, a < B → s[a]? = s0fix[a]?) :
    ∀ (fuel : Nat) (v : JVal), valInRegion 0 B v = true →
      ∀ (Δp : List JNode) (s1 : Store) (v1 : JVal),
        deepCopy fuel (s0fix ++ Δp) v = some (s1, v1) →
        ∃ Δn, s1 = s0fix ++ (Δp ++ Δn) ∧
          deepCopy fuel (s ++ shiftStore (s.length - B) Δp) v =
            some (s ++ shiftStore (s.length - B) (Δp ++ Δn),
              shiftVal (s.length - B) v1) := by
  intro fuel
  induction fuel with
  | zero => intro v hv Δp s1 v1 h; simp [deepCopy] at h
  | succ fuel ih =>
    intro v hv Δp s1 v1 h
    cases v with
    | str x =>
      simp only [deepCopy, Option.some.injEq, Prod.mk.injEq] at h
      obtain ⟨rfl, rfl⟩ := h
      exact ⟨[], by simp [deepCopy, shiftVal]⟩
    | nul =>
      simp only [deepCopy, Option.some.injEq, Prod.mk.injEq] at h
      obtain ⟨rfl, rfl⟩ := h
      exact ⟨[], by simp [deepCopy, shiftVal]⟩
    | ref a =>
      have ha : a < B := by
        have := (valInRegion_iff _ _ _).mp hv a (by simp [valRefs])
        omega
      have h0a : (s0fix ++ Δp)[a]? = s0fix[a]? :=
        List.getElem?_append_left (by omega)
      have hsa : (s ++ shiftStore (s.length - B) Δp)[a]? = s0fix[a]? := by
        rw [List.getElem?_append_left (by omega), hag a ha]
      obtain ⟨node, hnode⟩ : ∃ n, s0fix[a]? = some n :=
        ⟨_, List.getElem?_eq_getElem (by omega)⟩
      have hmem : node ∈ s0fix := List.getElem?_mem hnode
      have hrefs : ∀ r ∈ nodeRefs node, r < B := by
        intro r hr
        have := (deltaClosed_iff _ _).mp hcl node hmem r hr
        omega
      cases node with
      | obj fields =>
        rw [deepCopy] at h
        simp only [h0a, hnode] at h
        cases hcf : copyFieldsWith (deepCopy fuel) (s0fix ++ Δp) fields with
        | none => simp only [hcf] at h; exact absurd h (by simp)
        | some p =>
          obtain ⟨s', fields'⟩ := p
          simp only [hcf] at h
          simp only [Option.some.injEq, Prod.mk.injEq] at h
          obtain ⟨rfl, rfl⟩ := h
          have hfvals : ∀ kv ∈ fields, valInRegion 0 B kv.2 = true := by
            intro kv hkv
            rw [valInRegion_iff]
            intro r hr
            have := hrefs r (valRefs_mem_fieldsRefs fields kv hkv r hr)
            omega
          obtain ⟨Δn, rfl, hcf'⟩ :=
            copyFieldsWith_reloc B s0fix s (deepCopy fuel) ih fields hfvals
              Δp s' fields' hcf
          refine ⟨Δn ++ [.obj fields'], ?_, ?_⟩
          · simp [List.append_assoc]
          · rw [deepCopy]
            simp only [hsa, hnode, hcf']
            have hsh : shiftStore (s.length - B)
                (Δp ++ (Δn ++ [JNode.obj fields'])) =
                shiftStore (s.length - B) (Δp ++ Δn) ++
                  [shiftNode (s.length - B) (.obj fields')] := by
              rw [← List.append_assoc, shiftStore_append]
              rfl
            rw [hsh, ← List.append_assoc]
            have hlen : (s ++ shiftStore (s.length - B) (Δp ++ Δn)).length =
                (s0fix ++ (Δp ++ Δn)).length + (s.length - B) := by
              simp [shiftStore_length, hB]
              omega
            simp only [shiftNode, hlen]
            rfl
      | arr elems =>
        rw [deepCopy] at h
        simp only [h0a, hnode] at h
        cases hce : copyElemsWith (deepCopy fuel) (s0fix ++ Δp) elems with
        | none => simp only [hce] at h; exact absurd h (by simp)
        | some p =>
          obtain ⟨s', elems'⟩ := p
          simp only [hce] at h
          simp only [Option.some.injEq, Prod.mk.injEq] at h
          obtain ⟨rfl, rfl⟩ := h
          have hfvals : ∀ v0 ∈ elems, valInRegion 0 B v0 = true := by
            intro v0 hv0
            rw [valInRegion_iff]
            intro r hr
            have := hrefs r (valRefs_mem_elemsRefs elems v0 hv0 r hr)
            omega
          obtain ⟨Δn, rfl, hce'⟩ :=
            copyElemsWith_reloc B s0fix s (deepCopy fuel) ih elems hfvals
              Δp s' elems' hce
          refine ⟨Δn ++ [.arr elems'], ?_, ?_⟩
          · simp [List.append_assoc]
          · rw [deepCopy]
            simp only [hsa, hnode, hce']
            have hsh : shiftStore (s.length - B)
                (Δp ++ (Δn ++ [JNode.arr elems'])) =
                shiftStore (s.length - B) (Δp ++ Δn) ++
                  [shiftNode (s.length - B) (.arr elems')] := by
              rw [← List.append_assoc, shiftStore_append]
              rfl
            rw [hsh, ← List.append_assoc]
            have hlen : (s ++ shiftStore (s.length - B) (Δp ++ Δn)).length =
                (s0fix ++ (Δp ++ Δn)).length + (s.length - B) := by
              simp [shiftStore_length, hB]
              omega
            simp only [shiftNode, hlen]
            rfl

/-- Lookup just past a prefix. -/
theorem getElem?_append_add (u d : Store) (j : Nat) :
    (u ++ d)[u.length + j]? = d[j]? := by
  rw [List.getElem?_append_right (by omega)]
  congr 1
  omega

/-- Mapping the zero relocation over an optional node. -/
theorem map_shiftNode_zero (x : Option JNode) : x.map (shiftNode 0) = x := by
  cases x <;> simp [shiftNode_zero]

/-- The block view of a store of the shape `u ++ shiftStore d Δ ++ w`. -/
theorem blockAt_mid (Δ : List JNode) (u w : Store) (B d : Nat)
    (hu : u.length = B + d) :
    ∀ j, j < Δ.length →
      (u ++ (shiftStore d Δ ++ w))[B + d + j]? = (Δ[j]?).map (shiftNode d) := by
  intro j hj
  rw [(by omega : B + d + j = u.length + j), getElem?_append_add,
    List.getElem?_append_left (by rw [shiftStore_length]; omega),
    shiftStore_getElem?]

/-- The block view of a store of the shape `u ++ Δ` (no relocation, no
suffix). -/
theorem blockAt_base (Δ : List JNode) (u : Store) (B : Nat)
    (hu : u.length = B) :
    ∀ j, j < Δ.length → (u ++ Δ)[B + 0 + j]? = (Δ[j]?).map (shiftNode 0) := by
  intro j hj
  rw [(by omega : B + 0 + j = u.length + j), getElem?_append_add,
    map_shiftNode_zero]

/-- Writing past a prefix writes into the appended block. -/
theorem set_append_at (u d : Store) (a : Nat) (n : JNode)
    (h : u.length ≤ a) :
    (u ++ d).set a n = u ++ d.set (a - u.length) n := by
  have h2 : a = u.length + (a - u.length) := by omega
  conv_lhs => rw [h2]
  rw [set_append_add]

/-- Relocation of a sequence of property assignments on a closed block. -/
theorem applySets_reloc (B : Nat) (s0fix s : Store)
    (hB : s0fix.length = B) (hsB : B ≤ s.length)
    (hag : ∀ a, a < B → s[a]? = s0fix[a]?) :
    ∀ (sets : List (List String × String × JVal)),
      (∀ x ∈ sets, valRefs x.2.2 = []) →
      ∀ (Δ : List JNode), deltaClosed B Δ = true →
      ∀ (v : JVal), valInRegion B (B + Δ.length) v = true →
      ∀ (s1 : Store),
        applySets (s0fix ++ Δ) v sets = some s1 →
        ∃ Δ1, s1 = s0fix ++ Δ1 ∧ Δ1.length = Δ.length ∧
          deltaClosed B Δ1 = true ∧
          applySets (s ++ shiftStore (s.length - B) Δ)
              (shiftVal (s.length - B) v) sets =
            some (s ++ shiftStore (s.length - B) Δ1) := by
  intro sets
  induction sets with
  | nil =>
    intro _ Δ hcl v hv s1 h
    simp only [applySets, Option.some.injEq] at h
    exact ⟨Δ, h.symm, rfl, hcl, rfl⟩
  | cons x rest ih =>
    obtain ⟨path, k, val⟩ := x
    intro hvals Δ hcl v hv s1 h
    have hvalrefs : valRefs val = [] :=
      hvals (path, k, val) (List.mem_cons_self _ _)
    have hsrc : resolveAddr (s0fix ++ Δ) v path =
        resolveInBlock B Δ v path := by
      have := resolveAddr_block B Δ hcl path (s0fix ++ Δ) 0
        (blockAt_base Δ s0fix B hB) v hv
      rw [shiftVal_zero] at this
      rw [this]
      cases resolveInBlock B Δ v path <;> simp
    have htgt : resolveAddr (s ++ shiftStore (s.length - B) Δ)
        (shiftVal (s.length - B) v) path =
        (resolveInBlock B Δ v path).map (· + (s.length - B)) := by
      apply resolveAddr_block B Δ hcl path _ (s.length - B) _ v hv
      intro j hj
      have := blockAt_mid Δ s [] B (s.length - B) (by omega) j hj
      rw [List.append_nil] at this
      exact this
    rw [applySets] at h
    rw [hsrc] at h
    cases hres : resolveInBlock B Δ v path with
    | none => simp only [hres] at h; exact absurd h (by simp)
    | some a =>
      simp only [hres] at h
      have hreg := resolveInBlock_region B Δ hcl path v hv a hres
      have hm : a - B < Δ.length := by omega
      obtain ⟨node, hnode⟩ : ∃ n, Δ[a - B]? = some n :=
        ⟨_, List.getElem?_eq_getElem hm⟩
      have hsrcget : (s0fix ++ Δ)[a]? = some node := by
        rw [List.getElem?_append_right (by omega), hB, hnode]
      have htgtget : (s ++ shiftStore (s.length - B) Δ)[a + (s.length - B)]? =
          some (shiftNode (s.length - B) node) := by
        have hidx : a + (s.length - B) - s.length = a - B := by omega
        rw [List.getElem?_append_right (by omega), hidx, shiftStore_getElem?,
          hnode]
        rfl
      cases node with
      | obj fields =>
        have hsetsrc : setField (s0fix ++ Δ) a k val =
            s0fix ++ Δ.set (a - B) (.obj (setFieldList fields k val)) := by
          simp only [setField, hsrcget]
          rw [set_append_at _ _ _ _ (by omega), hB]
        have hsettgt : setField (s ++ shiftStore (s.length - B) Δ)
            (a + (s.length - B)) k val =
            s ++ shiftStore (s.length - B)
              (Δ.set (a - B) (.obj (setFieldList fields k val))) := by
          simp only [setField, htgtget]
          show (s ++ shiftStore (s.length - B) Δ).set (a + (s.length - B))
            (.obj (setFieldList
              (fields.map fun kv => (kv.1, shiftVal (s.length - B) kv.2))
              k val)) = _
          rw [setFieldList_map_shift _ _ _ _ hvalrefs,
            set_append_at _ _ _ _ (by omega),
            (by omega : a + (s.length - B) - s.length = a - B)]
          congr 1
          show (shiftStore (s.length - B) Δ).set (a - B)
            (shiftNode (s.length - B) (.obj (setFieldList fields k val))) = _
          rw [shiftStore, shiftStore, List.map_set]
        have hclosed' : deltaClosed B
            (Δ.set (a - B) (.obj (setFieldList fields k val))) = true := by
          apply deltaClosed_set B Δ _ _ hcl
          intro r hr
          rcases fieldsRefs_setFieldList fields k val r hr with h' | h'
          · exact (deltaClosed_iff _ _).mp hcl (.obj fields)
              (List.getElem?_mem hnode) r h'
          · rw [hvalrefs] at h'
            simp at h'
        rw [hsetsrc] at h
        obtain ⟨Δ1, rfl, hlen1, hcl1, htgtrest⟩ :=
          ih (fun x hx => hvals x (List.mem_cons_of_mem _ hx))
            (Δ.set (a - B) (.obj (setFieldList fields k val))) hclosed' v
            (by rw [valInRegion_iff] at hv ⊢
                intro r hr
                have := hv r hr
                rw [List.length_set]
                omega)
            s1 h
        refine ⟨Δ1, rfl, by rw [hlen1, List.length_set], hcl1, ?_⟩
        rw [applySets, htgt, hres]
        simp only [Option.map_some']
        rw [hsettgt, htgtrest]
      | arr elems =>
        have hsetsrc : setField (s0fix ++ Δ) a k val = s0fix ++ Δ := by
          simp only [setField, hsrcget]
        have hsettgt : setField (s ++ shiftStore (s.length - B) Δ)
            (a + (s.length - B)) k val =
            s ++ shiftStore (s.length - B) Δ := by
          simp only [setField, htgtget]
          rfl
        rw [hsetsrc] at h
        obtain ⟨Δ1, rfl, hlen1, hcl1, htgtrest⟩ :=
          ih (fun x hx => hvals x (List.mem_cons_of_mem _ hx)) Δ hcl v hv s1 h
        refine ⟨Δ1, rfl, hlen1, hcl1, ?_⟩
        rw [applySets, htgt, hres]
        simp only [Option.map_some']
        rw [hsettgt, htgtrest]

/-- One loop iteration relocates: the copy and the assignments behave in any
agreeing larger heap exactly as in the run from the template heap, which is
supplied explicitly (per template it is established by computation). -/
theorem genStep_reloc (B : Nat) (s0fix s : Store)
    (hB : s0fix.length = B) (hcl0 : deltaClosed 0 s0fix = true)
    (hsB : B ≤ s.length) (hag : ∀ a, a < B → s[a]? = s0fix[a]?)
    (fuel : Nat) (root : JVal) (hroot : valInRegion 0 B root = true)
    (sets : List (List String × String × JVal))
    (hvals : ∀ x ∈ sets, valRefs x.2.2 = [])
    (Δc : List JNode) (rc : JVal)
    (hcopy : deepCopy fuel s0fix root = some (s0fix ++ Δc, rc))
    (hclc : deltaClosed B Δc = true)
    (hrc : valInRegion B (B + Δc.length) rc = true)
    (Δ0 : List JNode)
    (happly : applySets (s0fix ++ Δc) rc sets = some (s0fix ++ Δ0)) :
    genStep fuel s root sets =
      some (s ++ shiftStore (s.length - B) Δ0, shiftVal (s.length - B) rc) := by
  have hcopy' : deepCopy fuel (s0fix ++ []) root = some (s0fix ++ Δc, rc) := by
    rw [List.append_nil]
    exact hcopy
  obtain ⟨Δn, hΔn, htgtcopy⟩ :=
    deepCopy_reloc B s0fix s hB hcl0 hsB hag fuel root hroot [] _ _ hcopy'
  have hΔeq : Δc = Δn := by
    have h' : s0fix ++ Δc = s0fix ++ Δn := by
      rw [hΔn, List.nil_append]
    exact List.append_cancel_left h'
  subst hΔeq
  have htgtcopy' : deepCopy fuel s root =
      some (s ++ shiftStore (s.length - B) Δc, shiftVal (s.length - B) rc) := by
    have h1 : shiftStore (s.length - B) ([] : List JNode) = [] := rfl
    rw [h1, List.append_nil, List.nil_append] at htgtcopy
    exact htgtcopy
  obtain ⟨Δ1, heq, hlen1, hcl1, htgtsets⟩ :=
    applySets_reloc B s0fix s hB hsB hag sets hvals Δc hclc rc hrc _ happly
  have hΔ01 : Δ0 = Δ1 := List.append_cancel_left heq
  subst hΔ01
  rw [genStep]
  simp only [htgtcopy', htgtsets]

/-- The materialization loop relocates iteration by iteration: starting from
any heap agreeing with the template heap below `B`, the loop appends the
per-iteration blocks in order and returns the relocated config roots. -/
theorem materialize_reloc (fuel B : Nat) (s0fix : Store) (root : JVal)
    (setsOf : Nat → List (List String × String × JVal))
    (delta : Nat → List JNode) (r0 : Nat → JVal)
    (hstep : ∀ (s : Store), B ≤ s.length →
      (∀ a, a < B → s[a]? = s0fix[a]?) →
      ∀ i, genStep fuel s root (setsOf i) =
        some (s ++ shiftStore (s.length - B) (delta i),
          shiftVal (s.length - B) (r0 i))) :
    ∀ (indices : List Nat) (s : Store) (acc : List JVal),
      B ≤ s.length → (∀ a, a < B → s[a]? = s0fix[a]?) →
      materialize fuel root setsOf indices s acc =
        some (s ++ stackFrom B delta s.length indices,
          acc ++ rootsFrom B delta r0 s.length indices) := by
  intro indices
  induction indices with
  | nil =>
    intro s acc hsB hag
    simp [materialize, stackFrom, rootsFrom]
  | cons i rest ih =>
    intro s acc hsB hag
    rw [materialize]
    simp only [hstep s hsB hag i]
    have hsB' : B ≤ (s ++ shiftStore (s.length - B) (delta i)).length := by
      simp [shiftStore_length]
      omega
    have hag' : ∀ a, a < B →
        (s ++ shiftStore (s.length - B) (delta i))[a]? = s0fix[a]? := by
      intro a ha
      rw [List.getElem?_append_left (by omega), hag a ha]
    rw [ih _ _ hsB' hag']
    rw [stackFrom, rootsFrom]
    simp [List.append_assoc, shiftStore_length]

/-- Reading `metadata.name` from a value confined to a closed block is also
independent of the block's location. -/
theorem metaNameAt_block (B : Nat) (Δ : List JNode)
    (hcl : deltaClosed B Δ = true)
    (t t0 : Store) (d d0 : Nat)
    (ht : ∀ j, j < Δ.length → t[B + d + j]? = (Δ[j]?).map (shiftNode d))
    (ht0 : ∀ j, j < Δ.length → t0[B + d0 + j]? = (Δ[j]?).map (shiftNode d0))
    (v : JVal) (hv : valInRegion B (B + Δ.length) v = true) :
    metaNameAt t (shiftVal d v) = metaNameAt t0 (shiftVal d0 v) := by
  have hres : resolveAddr t (shiftVal d v) ["metadata"] =
      (resolveInBlock B Δ v ["metadata"]).map (· + d) :=
    resolveAddr_block B Δ hcl _ t d ht v hv
  have hres0 : resolveAddr t0 (shiftVal d0 v) ["metadata"] =
      (resolveInBlock B Δ v ["metadata"]).map (· + d0) :=
    resolveAddr_block B Δ hcl _ t0 d0 ht0 v hv
  cases hblk : resolveInBlock B Δ v ["metadata"] with
  | none => simp [metaNameAt, hres, hres0, hblk]
  | some a =>
    have hreg := resolveInBlock_region B Δ hcl _ v hv a hblk
    have hm : a - B < Δ.length := by omega
    obtain ⟨node, hnode⟩ : ∃ n, Δ[a - B]? = some n :=
      ⟨_, List.getElem?_eq_getElem hm⟩
    have hta : t[a + d]? = some (shiftNode d node) := by
      rw [(by omega : a + d = B + d + (a - B)), ht _ hm, hnode]
      rfl
    have ht0a : t0[a + d0]? = some (shiftNode d0 node) := by
      rw [(by omega : a + d0 = B + d0 + (a - B)), ht0 _ hm, hnode]
      rfl
    simp only [metaNameAt, hres, hres0, hblk, Option.map_some']
    simp only [hta, ht0a]
    cases node with
    | obj fields =>
      simp only [shiftNode, lookupField_map_shift]
      cases hlf : lookupField fields "name" with
      | none => rfl
      | some w => cases w <;> rfl
    | arr elems => rfl

set_option maxHeartbeats 2000000 in
/-- The applications-loop iteration, relocated to any agreeing heap. -/
theorem genStep_app (ns suffix : String) (i : Nat) (s : Store)
    (hsB : 4 ≤ s.length) (hag : ∀ a, a < 4 → s[a]? = s0App[a]?) :
    genStep copyFuel s appRoot (appSets ns i suffix) =
      some (s ++ shiftStore (s.length - 4) (appDelta ns i suffix),
        shiftVal (s.length - 4) (.ref 7)) :=
  genStep_reloc 4 s0App s rfl (by decide) hsB hag copyFuel appRoot
    (by decide) (appSets ns i suffix)
    (by intro x hx
        simp only [appSets, List.mem_cons, List.not_mem_nil, or_false] at hx
        rcases hx with rfl | rfl | rfl <;> rfl)
    appCopyDelta (.ref 7) (by decide) (by decide) (by decide)
    (appDelta ns i suffix) rfl

set_option maxHeartbeats 2000000 in
/-- The releases-loop iteration, relocated to any agreeing heap. -/
theorem genStep_rel (releasePlan snapshot ns : String) (count i : Nat)
    (suffix : String) (s : Store)
    (hsB : 6 ≤ s.length) (hag : ∀ a, a < 6 → s[a]? = s0Rel[a]?) :
    genStep copyFuel s relRoot (relSets releasePlan snapshot ns count i suffix) =
      some (s ++ shiftStore (s.length - 6)
          (relDelta releasePlan snapshot ns count i suffix),
        shiftVal (s.length - 6) (.ref 11)) :=
  genStep_reloc 6 s0Rel s rfl (by decide) hsB hag copyFuel relRoot
    (by decide) (relSets releasePlan snapshot ns count i suffix)
    (by intro x hx
        simp only [relSets, List.mem_cons, List.not_mem_nil, or_false] at hx
        rcases hx with rfl | rfl | rfl | rfl | rfl | rfl <;> rfl)
    relCopyDelta (.ref 11) (by decide) (by decide) (by decide)
    (relDelta releasePlan snapshot ns count i suffix) rfl

set_option maxHeartbeats 2000000 in
/-- The integration-test-loop iteration, relocated to any agreeing heap. -/
theorem genStep_it (ns : String) (i : Nat) (s : Store)
    (hsB : 11 ≤ s.length) (hag : ∀ a, a < 11 → s[a]? = s0IT[a]?) :
    genStep copyFuel s itRoot (itSets ns i) =
      some (s ++ shiftStore (s.length - 11) (itDelta ns i),
        shiftVal (s.length - 11) (.ref 21)) :=
  genStep_reloc 11 s0IT s rfl (by decide) hsB hag copyFuel itRoot
    (by decide) (itSets ns i)
    (by intro x hx
        simp only [itSets, List.mem_cons, List.not_mem_nil, or_false] at hx
        rcases hx with rfl | rfl <;> rfl)
    itCopyDelta (.ref 21) (by decide) (by decide) (by decide)
    (itDelta ns i) rfl

/-- Block offsets never go below the starting base. -/
theorem blockOff_ge (delta : Nat → List JNode) :
    ∀ (indices : List Nat) (base k : Nat),
      base ≤ blockOff delta base indices k := by
  intro indices
  induction indices with
  | nil => intro base k; cases k <;> simp [blockOff]
  | cons i rest ih =>
    intro base k
    cases k with
    | zero => simp [blockOff]
    | succ k =>
      have := ih (base + (delta i).length) k
      simp only [blockOff]
      omega

/-- Blocks of earlier iterations end no later than later blocks begin. -/
theorem blockOff_mono (delta : Nat → List JNode) :
    ∀ (indices : List Nat) (base : Nat) (k l i : Nat), k < l →
      indices[k]? = some i →
      blockOff delta base indices k + (delta i).length ≤
        blockOff delta base indices l := by
  intro indices
  induction indices with
  | nil => intro base k l i hkl hk; simp at hk
  | cons i0 rest ih =>
    intro base k l i hkl hk
    cases k with
    | zero =>
      simp only [List.getElem?_cons_zero, Option.some.injEq] at hk
      subst hk
      cases l with
      | zero => omega
      | succ l =>
        show blockOff delta base (i0 :: rest) 0 + _ ≤
          blockOff delta (base + (delta i0).length) rest l
        simp only [blockOff]
        exact blockOff_ge delta rest (base + (delta i0).length) l
    | succ k =>
      cases l with
      | zero => omega
      | succ l =>
        simp only [List.getElem?_cons_succ] at hk
        show blockOff delta (base + (delta i0).length) rest k + _ ≤
          blockOff delta (base + (delta i0).length) rest l
        exact ih (base + (delta i0).length) k l i (by omega) hk

/-- Per-block facts of the loop's final heap: the `k`-th config root is the
`k`-th delta's root relocated to its block offset, and the heap holds the
relocated block there. -/
theorem stack_block_facts (B : Nat) (delta : Nat → List JNode)
    (r0 : Nat → JVal) :
    ∀ (indices : List Nat) (u : Store), B ≤ u.length →
      ∀ (k i : Nat), indices[k]? = some i →
        B ≤ blockOff delta u.length indices k ∧
        (rootsFrom B delta r0 u.length indices)[k]? =
          some (shiftVal (blockOff delta u.length indices k - B) (r0 i)) ∧
        ∀ j, j < (delta i).length →
          (u ++ stackFrom B delta u.length indices)[
              B + (blockOff delta u.length indices k - B) + j]? =
            ((delta i)[j]?).map
              (shiftNode (blockOff delta u.length indices k - B)) := by
  intro indices
  induction indices with
  | nil => intro u hu k i hk; simp at hk
  | cons i0 rest ih =>
    intro u hu k i hk
    cases k with
    | zero =>
      simp only [List.getElem?_cons_zero, Option.some.injEq] at hk
      subst hk
      refine ⟨by simp only [blockOff]; omega, ?_, ?_⟩
      · simp [rootsFrom, blockOff]
      · intro j hj
        have hb : blockOff delta u.length (i0 :: rest) 0 = u.length := rfl
        rw [hb, stackFrom]
        exact blockAt_mid (delta i0) u
          (stackFrom B delta (u.length + (delta i0).length) rest) B
          (u.length - B) (by omega) j hj
    | succ k =>
      have hk' : rest[k]? = some i := by simpa using hk
      have hu'len : (u ++ shiftStore (u.length - B) (delta i0)).length =
          u.length + (delta i0).length := by
        simp [shiftStore_length]
      have hu' : B ≤ (u ++ shiftStore (u.length - B) (delta i0)).length := by
        omega
      obtain ⟨hge, hroots, hblocks⟩ :=
        ih (u ++ shiftStore (u.length - B) (delta i0)) hu' k i hk'
      rw [hu'len] at hge hroots hblocks
      have hoff : blockOff delta u.length (i0 :: rest) (k + 1) =
          blockOff delta (u.length + (delta i0).length) rest k := rfl
      refine ⟨by rw [hoff]; omega, ?_, ?_⟩
      · show (rootsFrom B delta r0 u.length (i0 :: rest))[k + 1]? = _
        rw [rootsFrom, List.getElem?_cons_succ, hoff]
        exact hroots
      · intro j hj
        show (u ++ stackFrom B delta u.length (i0 :: rest))[
            B + (blockOff delta u.length (i0 :: rest) (k + 1) - B) + j]? = _
        rw [stackFrom, hoff]
        have hassoc : u ++ (shiftStore (u.length - B) (delta i0) ++
            stackFrom B delta (u.length + (delta i0).length) rest) =
            (u ++ shiftStore (u.length - B) (delta i0)) ++
              stackFrom B delta (u.length + (delta i0).length) rest := by
          rw [List.append_assoc]
        rw [hassoc]
        exact hblocks j hj

/-- The loop produces one config per index. -/
theorem rootsFrom_length (B : Nat) (delta : Nat → List JNode)
    (r0 : Nat → JVal) :
    ∀ (indices : List Nat) (base : Nat),
      (rootsFrom B delta r0 base indices).length = indices.length := by
  intro indices
  induction indices with
  | nil => intro base; rfl
  | cons i rest ih =>
    intro base
    simp [rootsFrom, ih]

/-- Length of the `for (i = lo; i <= hi; i++)` index list. -/
theorem natRange_length (lo hi : Nat) :
    (natRange lo hi).length = hi + 1 - lo := by
  simp [natRange]

/-- Elements of the index list. -/
theorem natRange_getElem? (lo hi n : Nat) (h : n < hi + 1 - lo) :
    (natRange lo hi)[n]? = some (lo + n) := by
  rw [natRange, List.getElem?_map, List.getElem?_range h]
  rfl

/-- The index list has no duplicates. -/
theorem natRange_nodup (lo hi : Nat) : (natRange lo hi).Nodup := by
  apply List.Nodup.map
  · intro a b hab
    simp only at hab
    omega
  · exact List.nodup_range _

/-- A `setField` write touches only its own address. -/
theorem setField_getElem?_ne (s : Store) (a : Nat) (k : String) (v : JVal)
    (b : Nat) (hba : b ≠ a) : (setField s a k v)[b]? = s[b]? := by
  rw [setField]
  cases s[a]? with
  | none => rfl
  | some n =>
    cases n with
    | obj fields => exact List.getElem?_set_ne (fun h => hba h.symm)
    | arr elems => rfl

/-- The names the loop's configs carry in the final heap are exactly the
per-iteration names read from the isolated runs. -/
theorem stack_names (B : Nat) (delta : Nat → List JNode) (r0 : Nat → JVal)
    (nameF : Nat → String) (u : Store) (hu : u.length = B)
    (hdc : ∀ i, deltaClosed B (delta i) = true)
    (hvr : ∀ i, valInRegion B (B + (delta i).length) (r0 i) = true)
    (hname : ∀ i, metaNameAt (u ++ delta i) (r0 i) = some (nameF i)) :
    ∀ indices : List Nat,
      (rootsFrom B delta r0 u.length indices).map
          (metaNameAt (u ++ stackFrom B delta u.length indices)) =
        indices.map (fun i => some (nameF i)) := by
  intro indices
  apply List.ext_getElem?
  intro n
  rw [List.getElem?_map, List.getElem?_map]
  cases hidx : indices[n]? with
  | none =>
    have hlen : indices.length ≤ n := by
      by_contra hc
      rw [List.getElem?_eq_getElem (by omega)] at hidx
      exact absurd hidx (by simp)
    rw [List.getElem?_eq_none (by rw [rootsFrom_length]; omega)]
    rfl
  | some i =>
    obtain ⟨hge, hroots, hblocks⟩ :=
      stack_block_facts B delta r0 indices u (by omega) n i hidx
    rw [hroots]
    simp only [Option.map_some']
    have hblk := metaNameAt_block B (delta i) (hdc i)
      (u ++ stackFrom B delta u.length indices) (u ++ delta i)
      (blockOff delta u.length indices n - B) 0 hblocks
      (blockAt_base (delta i) u B hu) (r0 i) (hvr i)
    rw [shiftVal_zero] at hblk
    rw [hblk, hname i]

/-- In the final heap, mutating any field reachable from one config changes
neither any other config's observable tree nor the template's, and each
config reads as its isolated run does. -/
theorem stack_no_aliasing (B : Nat) (delta : Nat → List JNode)
    (r0 : Nat → JVal) (u : Store) (hu : u.length = B)
    (hclu : deltaClosed 0 u = true)
    (hdc : ∀ i, deltaClosed B (delta i) = true)
    (hvr : ∀ i, valInRegion B (B + (delta i).length) (r0 i) = true)
    (root : JVal) (hroot : valInRegion 0 B root = true)
    (indices : List Nat) (k l : Nat) (ck cl : JVal) (hkl : k ≠ l)
    (hck : (rootsFrom B delta r0 u.length indices)[k]? = some ck)
    (hcl : (rootsFrom B delta r0 u.length indices)[l]? = some cl)
    (path : List String) (a : Nat)
    (hres : resolveAddr (u ++ stackFrom B delta u.length indices) ck path =
      some a)
    (key : String) (val : JVal) (fuel : Nat) :
    readTree fuel
        (setField (u ++ stackFrom B delta u.length indices) a key val) cl =
      readTree fuel (u ++ stackFrom B delta u.length indices) cl ∧
    readTree fuel
        (setField (u ++ stackFrom B delta u.length indices) a key val) root =
      readTree fuel (u ++ stackFrom B delta u.length indices) root := by
  have hkidx : ∃ ik, indices[k]? = some ik := by
    have hklen : k < (rootsFrom B delta r0 u.length indices).length := by
      by_contra hc
      rw [List.getElem?_eq_none (by omega)] at hck
      exact absurd hck (by simp)
    rw [rootsFrom_length] at hklen
    exact ⟨_, List.getElem?_eq_getElem hklen⟩
  have hlidx : ∃ il, indices[l]? = some il := by
    have hllen : l < (rootsFrom B delta r0 u.length indices).length := by
      by_contra hc
      rw [List.getElem?_eq_none (by omega)] at hcl
      exact absurd hcl (by simp)
    rw [rootsFrom_length] at hllen
    exact ⟨_, List.getElem?_eq_getElem hllen⟩
  obtain ⟨ik, hik⟩ := hkidx
  obtain ⟨il, hil⟩ := hlidx
  obtain ⟨hgek, hrootsk, hblocksk⟩ :=
    stack_block_facts B delta r0 indices u (by omega) k ik hik
  obtain ⟨hgel, hrootsl, hblocksl⟩ :=
    stack_block_facts B delta r0 indices u (by omega) l il hil
  rw [hck] at hrootsk
  rw [hcl] at hrootsl
  have hckv : ck = shiftVal (blockOff delta u.length indices k - B) (r0 ik) :=
    Option.some.inj hrootsk
  have hclv : cl = shiftVal (blockOff delta u.length indices l - B) (r0 il) :=
    Option.some.inj hrootsl
  -- the mutated address lies in block k
  have hablock : blockOff delta u.length indices k ≤ a ∧
      a < blockOff delta u.length indices k + (delta ik).length := by
    rw [hckv] at hres
    rw [resolveAddr_block B (delta ik) (hdc ik) path _ _ hblocksk (r0 ik)
      (hvr ik)] at hres
    cases hin : resolveInBlock B (delta ik) (r0 ik) path with
    | none => rw [hin] at hres; exact absurd hres (by simp)
    | some a0 =>
      rw [hin] at hres
      simp only [Option.map_some', Option.some.injEq] at hres
      have := resolveInBlock_region B (delta ik) (hdc ik) path (r0 ik)
        (hvr ik) a0 hin
      omega
  -- block l is untouched
  have hdisj : ∀ j, j < (delta il).length →
      blockOff delta u.length indices l - B + B + j ≠ a := by
    intro j hj
    rcases Nat.lt_or_ge k l with hlt | hge2
    · have := blockOff_mono delta indices u.length k l ik hlt hik
      omega
    · have hlk : l < k := by omega
      have := blockOff_mono delta indices u.length l k il hlk hil
      omega
  constructor
  · -- other config unchanged: both stores hold block l
    rw [hclv]
    have hl0 : ∀ j, j < (delta il).length →
        (setField (u ++ stackFrom B delta u.length indices) a key val)[
            B + (blockOff delta u.length indices l - B) + j]? =
          ((delta il)[j]?).map
            (shiftNode (blockOff delta u.length indices l - B)) := by
      intro j hj
      rw [setField_getElem?_ne _ _ _ _ _ (by have := hdisj j hj; omega)]
      exact hblocksl j hj
    exact readTree_block B (delta il) (hdc il) fuel _ _ _ _ hl0 hblocksl
      (r0 il) (hvr il)
  · -- template unchanged: both stores hold the template block at 0
    have htmpl : ∀ j, j < u.length →
        (u ++ stackFrom B delta u.length indices)[0 + 0 + j]? =
          (u[j]?).map (shiftNode 0) := by
      intro j hj
      rw [(by omega : 0 + 0 + j = j), List.getElem?_append_left hj,
        map_shiftNode_zero]
    have htmpl' : ∀ j, j < u.length →
        (setField (u ++ stackFrom B delta u.length indices) a key val)[
            0 + 0 + j]? = (u[j]?).map (shiftNode 0) := by
      intro j hj
      rw [setField_getElem?_ne _ _ _ _ _ (by omega), htmpl j hj]
    have := readTree_block 0 u hclu fuel
      (setField (u ++ stackFrom B delta u.length indices) a key val)
      (u ++ stackFrom B delta u.length indices) 0 0 htmpl' htmpl root
      (by simp only [Nat.zero_add, hu]; exact hroot)
    rw [shiftVal_zero] at this
    exact this

/-- Each config in the final heap reads as the isolated run from the
template heap (at every fuel). -/
theorem stack_readTree_iso (B : Nat) (delta : Nat → List JNode)
    (r0 : Nat → JVal) (u : Store) (hu : u.length = B)
    (hdc : ∀ i, deltaClosed B (delta i) = true)
    (hvr : ∀ i, valInRegion B (B + (delta i).length) (r0 i) = true)
    (indices : List Nat) (k i : Nat) (ck : JVal)
    (hik : indices[k]? = some i)
    (hck : (rootsFrom B delta r0 u.length indices)[k]? = some ck)
    (fuel : Nat) :
    readTree fuel (u ++ stackFrom B delta u.length indices) ck =
      readTree fuel (u ++ delta i) (r0 i) := by
  obtain ⟨hge, hroots, hblocks⟩ :=
    stack_block_facts B delta r0 indices u (by omega) k i hik
  rw [hck] at hroots
  rw [Option.some.inj hroots]
  have h := readTree_block B (delta i) (hdc i) fuel
    (u ++ stackFrom B delta u.length indices) (u ++ delta i)
    (blockOff delta u.length indices k - B) 0 hblocks
    (blockAt_base (delta i) u B hu) (r0 i) (hvr i)
  rw [shiftVal_zero] at h
  exact h

/-- Reading `metadata.name` from one isolated applications iteration. -/
theorem appDelta_name (ns : String) (i : Nat) (suffix : String) :
    metaNameAt (s0App ++ appDelta ns i suffix) (.ref 7) =
      some (appName i suffix) := rfl

/-- Reading `metadata.name` from one isolated releases iteration. -/
theorem relDelta_name (releasePlan snapshot ns : String) (count i : Nat)
    (suffix : String) :
    metaNameAt (s0Rel ++ relDelta releasePlan snapshot ns count i suffix)
      (.ref 11) = some (relName releasePlan i suffix) := rfl

/-- Reading `metadata.name` from one isolated integration-test iteration. -/
theorem itDelta_name (ns : String) (i : Nat) :
    metaNameAt (s0IT ++ itDelta ns i) (.ref 21) = some (itName i) := rfl

set_option maxHeartbeats 1000000 in
/-- One isolated applications config reads as a full JSON tree. -/
theorem appDelta_readTree_isSome (ns : String) (i : Nat) (suffix : String) :
    (readTree copyFuel (s0App ++ appDelta ns i suffix) (.ref 7)).isSome =
      true := rfl

set_option maxHeartbeats 2000000 in
/-- One isolated releases config reads as a full JSON tree. -/
theorem relDelta_readTree_isSome (releasePlan snapshot ns : String)
    (count i : Nat) (suffix : String) :
    (readTree copyFuel
      (s0Rel ++ relDelta releasePlan snapshot ns count i suffix)
      (.ref 11)).isSome = true := rfl

/-- Release names with distinct indices differ (dash-free suffixes). -/
theorem relName_ne (plan : String) (i j : Nat) (si sj : String)
    (hsi : '-' ∉ si.data) (hsj : '-' ∉ sj.data) (hne : i ≠ j) :
    relName plan i si ≠ relName plan j sj := by
  have h1 : relName plan i si = (plan ++ "-") ++ Nat.repr i ++ "-" ++ si := by
    simp [relName, String.append_assoc]
  have h2 : relName plan j sj = (plan ++ "-") ++ Nat.repr j ++ "-" ++ sj := by
    simp [relName, String.append_assoc]
  rw [h1, h2]
  exact indexed_name_ne (plan ++ "-") i j si sj hsi hsj hne

/-- Application names with distinct indices differ (dash-free suffixes). -/
theorem appName_ne (i j : Nat) (si sj : String)
    (hsi : '-' ∉ si.data) (hsj : '-' ∉ sj.data) (hne : i ≠ j) :
    appName i si ≠ appName j sj :=
  indexed_name_ne "test-application-" i j si sj hsi hsj hne

/-- Distinct names on a duplicate-free index list give a duplicate-free name
list. -/
theorem names_nodup (nameF : Nat → String) (indices : List Nat)
    (hnd : indices.Nodup)
    (hinj : ∀ i ∈ indices, ∀ j ∈ indices, i ≠ j → nameF i ≠ nameF j) :
    (indices.map fun i => some (nameF i)).Nodup := by
  apply List.Nodup.map_on _ hnd
  intro x hx y hy hxy
  by_contra hne
  exact hinj x hx y hy hne (Option.some.inj hxy)

/-- C1 counterexample: the claim says the materialization loop produces `N`
configs for every requested count `N`, but the applications loop
(`for (let i = 11; i <= NoOfApplications; i++)` with `NoOfApplications =
20`) pushes only 10 configs. -/
theorem applications_count_counterexample :
    NoOfApplications = 20 ∧
    ((materializeApplications "default" (fun _ => "x") NoOfApplications).map
      fun p => p.2.length) = some 10 ∧
    (10 : Nat) ≠ NoOfApplications := by
  refine ⟨rfl, ?_, by decide⟩
  have h := materialize_reloc copyFuel 4 s0App appRoot
    (fun i => appSets "default" i "x") (fun i => appDelta "default" i "x")
    (fun _ => .ref 7)
    (fun s hsB hag i => genStep_app "default" "x" i s hsB hag)
    (natRange 11 NoOfApplications) s0App [] (by decide) (fun a ha => rfl)
  rw [List.nil_append] at h
  show ((materialize copyFuel appRoot (fun i => appSets "default" i "x")
    (natRange 11 NoOfApplications) s0App []).map fun p => p.2.length) =
    some 10
  rw [h]
  simp only [Option.map_some']
  rw [rootsFrom_length, natRange_length]
  decide

/-- C1 amended: the releases loop produces exactly `count` configs, while
the applications loop starts at index 11 and produces `N - 10` configs; in
both loops the produced configs carry pairwise-distinct `metadata.name`
values (`⟨plan⟩-⟨i⟩-⟨suffix⟩` resp. `test-application-⟨i⟩-⟨suffix⟩`), each
config reads as a full JSON tree, and there is no structural sharing:
mutating any field reachable from one produced config (a `setField` at any
address `resolveAddr` reaches from it) changes neither what any other
config nor what the template reads as, at every read depth.  Suffixes
produced by `appendRandomString` are dash-free, which is the stated
hypothesis. -/
theorem materialize_loops_amended
    (releasePlan snapshot ns : String) (count : Nat)
    (suffixes : Nat → String)
    (hsfx : ∀ i, '-' ∉ (suffixes i).data)
    (nsA : String) (suffixesA : Nat → String) (noOfApps : Nat)
    (hsfxA : ∀ i, '-' ∉ (suffixesA i).data) :
    (∃ s cfgs,
      materializeReleases releasePlan snapshot ns count suffixes =
        some (s, cfgs) ∧
      cfgs.length = count ∧
      cfgs.map (metaNameAt s) =
        (natRange 1 count).map
          (fun i => some (relName releasePlan i (suffixes i))) ∧
      (cfgs.map (metaNameAt s)).Nodup ∧
      (∀ (k : Nat) (ck : JVal), cfgs[k]? = some ck →
        (readTree copyFuel s ck).isSome = true) ∧
      (∀ (k l : Nat) (ck cl : JVal), k ≠ l →
        cfgs[k]? = some ck → cfgs[l]? = some cl →
        ∀ path a, resolveAddr s ck path = some a →
          ∀ key val fuel,
            readTree fuel (setField s a key val) cl = readTree fuel s cl ∧
            readTree fuel (setField s a key val) relRoot =
              readTree fuel s relRoot)) ∧
    (∃ s cfgs,
      materializeApplications nsA suffixesA noOfApps = some (s, cfgs) ∧
      cfgs.length = noOfApps - 10 ∧
      cfgs.map (metaNameAt s) =
        (natRange 11 noOfApps).map
          (fun i => some (appName i (suffixesA i))) ∧
      (cfgs.map (metaNameAt s)).Nodup ∧
      (∀ (k : Nat) (ck : JVal), cfgs[k]? = some ck →
        (readTree copyFuel s ck).isSome = true) ∧
      (∀ (k l : Nat) (ck cl : JVal), k ≠ l →
        cfgs[k]? = some ck → cfgs[l]? = some cl →
        ∀ path a, resolveAddr s ck path = some a →
          ∀ key val fuel,
            readTree fuel (setField s a key val) cl = readTree fuel s cl ∧
            readTree fuel (setField s a key val) appRoot =
              readTree fuel s appRoot)) := by
  constructor
  · have hmat := materialize_reloc copyFuel 6 s0Rel relRoot
      (fun i => relSets releasePlan snapshot ns count i (suffixes i))
      (fun i => relDelta releasePlan snapshot ns count i (suffixes i))
      (fun _ => .ref 11)
      (fun s hsB hag i =>
        genStep_rel releasePlan snapshot ns count i (suffixes i) s hsB hag)
      (natRange 1 count) s0Rel [] (by decide) (fun a ha => rfl)
    rw [List.nil_append] at hmat
    have hnames := stack_names 6
      (fun i => relDelta releasePlan snapshot ns count i (suffixes i))
      (fun _ => .ref 11)
      (fun i => relName releasePlan i (suffixes i)) s0Rel rfl
      (fun i => rfl) (fun i => rfl)
      (fun i => relDelta_name releasePlan snapshot ns count i (suffixes i))
      (natRange 1 count)
    refine ⟨_, _, hmat, ?_, hnames, ?_, ?_, ?_⟩
    · rw [rootsFrom_length, natRange_length]
      omega
    · rw [hnames]
      exact names_nodup _ _ (natRange_nodup 1 count)
        (fun i _ j _ hij =>
          relName_ne releasePlan i j (suffixes i) (suffixes j)
            (hsfx i) (hsfx j) hij)
    · intro k ck hck
      have hklen : k < (natRange 1 count).length := by
        by_contra hc
        rw [List.getElem?_eq_none (by rw [rootsFrom_length]; omega)] at hck
        exact absurd hck (by simp)
      obtain ⟨ik, hik⟩ : ∃ i, (natRange 1 count)[k]? = some i :=
        ⟨_, List.getElem?_eq_getElem hklen⟩
      rw [stack_readTree_iso 6
        (fun i => relDelta releasePlan snapshot ns count i (suffixes i))
        (fun _ => .ref 11) s0Rel rfl (fun i => rfl) (fun i => rfl)
        (natRange 1 count) k ik ck hik hck copyFuel]
      exact relDelta_readTree_isSome releasePlan snapshot ns count ik
        (suffixes ik)
    · intro k l ck cl hkl hck hcl path a hres key val fuel
      exact stack_no_aliasing 6
        (fun i => relDelta releasePlan snapshot ns count i (suffixes i))
        (fun _ => .ref 11) s0Rel rfl (by decide) (fun i => rfl)
        (fun i => rfl) relRoot (by decide) (natRange 1 count) k l ck cl hkl
        hck hcl path a hres key val fuel
  · have hmat := materialize_reloc copyFuel 4 s0App appRoot
      (fun i => appSets nsA i (suffixesA i))
      (fun i => appDelta nsA i (suffixesA i))
      (fun _ => .ref 7)
      (fun s hsB hag i => genStep_app nsA (suffixesA i) i s hsB hag)
      (natRange 11 noOfApps) s0App [] (by decide) (fun a ha => rfl)
    rw [List.nil_append] at hmat
    have hnames := stack_names 4
      (fun i => appDelta nsA i (suffixesA i))
      (fun _ => .ref 7)
      (fun i => appName i (suffixesA i)) s0App rfl
      (fun i => rfl) (fun i => rfl)
      (fun i => appDelta_name nsA i (suffixesA i))
      (natRange 11 noOfApps)
    refine ⟨_, _, hmat, ?_, hnames, ?_, ?_, ?_⟩
    · rw [rootsFrom_length, natRange_length]
      omega
    · rw [hnames]
      exact names_nodup _ _ (natRange_nodup 11 noOfApps)
        (fun i _ j _ hij =>
          appName_ne i j (suffixesA i) (suffixesA j)
            (hsfxA i) (hsfxA j) hij)
    · intro k ck hck
      have hklen : k < (natRange 11 noOfApps).length := by
        by_contra hc
        rw [List.getElem?_eq_none (by rw [rootsFrom_length]; omega)] at hck
        exact absurd hck (by simp)
      obtain ⟨ik, hik⟩ : ∃ i, (natRange 11 noOfApps)[k]? = some i :=
        ⟨_, List.getElem?_eq_getElem hklen⟩
      rw [stack_readTree_iso 4
        (fun i => appDelta nsA i (suffixesA i))
        (fun _ => .ref 7) s0App rfl (fun i => rfl) (fun i => rfl)
        (natRange 11 noOfApps) k ik ck hik hck copyFuel]
      exact appDelta_readTree_isSome nsA ik (suffixesA ik)
    · intro k l ck cl hkl hck hcl path a hres key val fuel
      exact stack_no_aliasing 4
        (fun i => appDelta nsA i (suffixesA i))
        (fun _ => .ref 7) s0App rfl (by decide) (fun i => rfl)
        (fun i => rfl) appRoot (by decide) (natRange 11 noOfApps) k l ck cl
        hkl hck hcl path a hres key val fuel

/-- Witness for C1 amended: a concrete releases run with `count = 2` and
suffix `"ab"` yields two configs with the expected distinct names, and a
concrete applications run with `NoOfApplications = 20` yields ten configs. -/
theorem materialize_loops_amended_witness :
    (∃ s cfgs,
      materializeReleases "plan" "snap" "teamns" 2 (fun _ => "ab") =
        some (s, cfgs) ∧
      cfgs.length = 2 ∧
      cfgs.map (metaNameAt s) = [some "plan-1-ab", some "plan-2-ab"] ∧
      (cfgs.map (metaNameAt s)).Nodup) ∧
    (∃ s cfgs,
      materializeApplications "default" (fun _ => "x") 20 = some (s, cfgs) ∧
      cfgs.length = 10) := by
  obtain ⟨⟨s, cfgs, h1, h2, h3, h4, -, -⟩, ⟨sA, cfgsA, hA1, hA2, -, -, -, -⟩⟩ :=
    materialize_loops_amended "plan" "snap" "teamns" 2 (fun _ => "ab")
      (fun _ => by show '-' ∉ "ab".data; decide)
      "default" (fun _ => "x") 20
      (fun _ => by show '-' ∉ "x".data; decide)
  refine ⟨⟨s, cfgs, h1, h2, ?_, h4⟩, ⟨sA, cfgsA, hA1, hA2⟩⟩
  rw [h3]
  rfl

/-- C10: the integration-test materialization loop
`for (let i = 5; i <= 5 + NoOfIntegrationTest; i++)` produces `n + 1`
configs for bound parameter `n`; with the script's `NoOfIntegrationTest =
3` (the count used for the safety check and for the `Creating 3 integration
tests` message) it produces exactly 4 configs, named
`test-integration-5` through `test-integration-8`. -/
theorem integrationtest_loop_off_by_one :
    (∀ (n : Nat) (ns : String), ∃ s cfgs,
      materializeIntegrationTests ns n = some (s, cfgs) ∧
      cfgs.length = n + 1) ∧
    NoOfIntegrationTest = 3 ∧
    (∀ ns : String, ∃ s cfgs,
      materializeIntegrationTests ns NoOfIntegrationTest = some (s, cfgs) ∧
      cfgs.length = NoOfIntegrationTest + 1 ∧
      cfgs.map (metaNameAt s) =
        [some "test-integration-5", some "test-integration-6",
         some "test-integration-7", some "test-integration-8"]) := by
  have key : ∀ (n : Nat) (ns : String), materializeIntegrationTests ns n =
      some (s0IT ++ stackFrom 11 (fun i => itDelta ns i) s0IT.length
          (natRange 5 (5 + n)),
        rootsFrom 11 (fun i => itDelta ns i) (fun _ => .ref 21) s0IT.length
          (natRange 5 (5 + n))) := by
    intro n ns
    have h := materialize_reloc copyFuel 11 s0IT itRoot (fun i => itSets ns i)
      (fun i => itDelta ns i) (fun _ => .ref 21)
      (fun s hsB hag i => genStep_it ns i s hsB hag)
      (natRange 5 (5 + n)) s0IT [] (by decide) (fun a ha => rfl)
    rw [List.nil_append] at h
    exact h
  refine ⟨?_, rfl, ?_⟩
  · intro n ns
    refine ⟨_, _, key n ns, ?_⟩
    rw [rootsFrom_length, natRange_length]
    omega
  · intro ns
    refine ⟨_, _, key 3 ns, ?_, ?_⟩
    · rw [rootsFrom_length, natRange_length]
      decide
    · rw [stack_names 11 (fun i => itDelta ns i) (fun _ => .ref 21) itName
        s0IT rfl (fun i => rfl) (fun i => rfl) (fun i => itDelta_name ns i)
        (natRange 5 (5 + 3))]
      rfl

end KfluxScripts
